import Mathlib

/-!
Verification development for the ftext in-place text formatter
(src/ftext.c).

The program edits a memory-mapped text file through three buffer
primitives (collapse_file, extend_file_and_map, shift_file_data)
and line-oriented transformation passes (normalisation, reflow,
justification, right and centre alignment).

The mapped buffer is modelled as a list of byte values (Nat).  A read
one past the mapped extent returns 0: a shared file mapping's final
page is zero-filled past the end of the file, which is exactly what
the C code relies on whenever it dereferences `endp` (for example in
`while (*line_end == 0x0a)` on the last line).  Reads *below* the
start of the mapping would fault; the modelled runs never perform
them, and the relevant theorems carry hypotheses that keep the code
away from those paths.
-/

namespace Ftext

/-- Byte read `*(startp + i)`; reads at or past `endp` see the
zero-filled page tail, hence default 0. -/
def byteAt (l : List Nat) (i : Nat) : Nat := l.getD i 0

/-- Model of `memchr` restricted to the window [start, stop): the index
of the first occurrence of byte `c` there, if any.  The auxiliary
recursion is on the window width. -/
def findInAux (l : List Nat) (c : Nat) : Nat → Nat → Option Nat
  | _, 0 => none
  | start, k+1 =>
    if _h : start < l.length then
      if byteAt l start = c then some start else findInAux l c (start+1) k
    else none

/-- `memchr(startp + start, c, stop - start)`. -/
def findIn (l : List Nat) (c : Nat) (start stop : Nat) : Option Nat :=
  findInAux l c start (stop - start)

/-- `memchr` to the end of the mapping: `memchr(startp + start, c, len - start)`. -/
def findFrom (l : List Nat) (c : Nat) (start : Nat) : Option Nat :=
  findIn l c start l.length

/-- Index just past the run of bytes equal to `c` starting at `i`:
the C idiom `while (*p == c) ++p` (which stops on the zero page when
it reaches the end of the mapping). -/
def skipRun (l : List Nat) (c : Nat) (i : Nat) : Nat :=
  i + ((l.drop i).takeWhile (· == c)).length

/-- The C idiom `while (*p != c && p > left) --p`: backward scan for
byte `c`, stopping at the floor `left`. -/
def scanBackFor (l : List Nat) (c : Nat) (left : Nat) : Nat → Nat
  | 0 => 0
  | p+1 => if byteAt l (p+1) = c ∨ p+1 ≤ left then p+1 else scanBackFor l c left p

/-- The C idiom `while (*p == 0x20) --p`: skip spaces downward.  The
modelled runs only reach this with a non-space byte at index 0 in
range, so the clamp at 0 is never what stops the scan. -/
def backSkipSpaces (l : List Nat) : Nat → Nat
  | 0 => 0
  | p+1 => if byteAt l (p+1) = 32 then backSkipSpaces l p else p+1

/-! ## The mapped-file primitives (struct mapped_file_t) -/

/-- Mapped-file state: the mapping contents plus the two recorded size
counters of `mapped_file_t` (`map_size` and `current_file_size`). -/
structure MappedFile where
  data : List Nat
  map_size : Nat
  current_file_size : Nat
deriving DecidableEq

/-- The invariant the specification asserts for the buffer: the
recorded mapping size equals the recorded file size. -/
def sizesConsistent (f : MappedFile) : Prop :=
  f.map_size = f.current_file_size

instance (f : MappedFile) : Decidable (sizesConsistent f) := by
  unfold sizesConsistent; infer_instance

/-- The bytes of the old mapping extent after the memmove/memset pair
inside `__collapse_file`: [offset+range, end) moved down to offset,
and the vacated tail of `range` bytes zero-filled. -/
def collapsedFull (l : List Nat) (offset range : Nat) : List Nat :=
  l.take offset ++ l.drop (offset + range) ++ List.replicate range 0

/-- `__collapse_file`: delete the byte range [offset, offset+range)
from the mapping and the file.  Mirrors the C control flow exactly:
the out-of-range guard returns success with nothing changed;
`map_size` is updated *before* the remap; the file-size counter is
decremented in the argument of `ftruncate`, hence before a truncate
failure returns.  `mmapOk` and `truncOk` inject failure of the mmap
and ftruncate calls.  The memmove size `endp - from` underflows when
offset + range exceeds the extent — undefined behaviour in C,
modelled as `none`. -/
def collapse_file (f : MappedFile) (offset : Int) (range : Nat)
    (mmapOk truncOk : Bool) : Option (MappedFile × Int) :=
  if offset < 0 ∨ (f.map_size : Int) ≤ offset then some (f, 0)
  else if f.map_size < offset.toNat + range then none
  else
    let full := collapsedFull f.data offset.toNat range
    let newSize := f.map_size - range
    let f1 : MappedFile := { f with data := full, map_size := newSize }
    if !mmapOk then some (f1, -1)
    else
      let f2 : MappedFile :=
        { f1 with data := full.take newSize,
                  current_file_size := f1.current_file_size - range }
      if !truncOk then some (f2, -1) else some (f2, 0)

/-- `__extend_file_and_map`: allocate `amt` bytes of disc space at the
end of the file and grow the mapping in place.  `allocOk` and `mmapOk`
inject failure of posix_fallocate and mmap.  `current_file_size` is
increased after a successful fallocate but *before* the remap, as in
the C; the Bool result is false exactly when the C returns NULL. -/
def extend_file_and_map (f : MappedFile) (amt : Int) (allocOk mmapOk : Bool) :
    MappedFile × Bool :=
  if amt ≤ 0 then (f, true)
  else if !allocOk then (f, false)
  else
    let f1 : MappedFile := { f with current_file_size := f.current_file_size + amt.toNat }
    if !mmapOk then (f1, false)
    else ({ f1 with data := f1.data ++ List.replicate amt.toNat 0,
                    map_size := f1.map_size + amt.toNat }, true)

/-- `__shift_file_data`: move [offset, end-amt) up to [offset+amt, end)
and zero the opened gap [offset, offset+amt).  The byte count
`(endp - by) - from` underflows when offset + amt exceeds the extent —
undefined behaviour in C, modelled as `none`.  Size counters are not
touched. -/
def shift_file_data (l : List Nat) (offset amt : Nat) : Option (List Nat) :=
  if offset + amt ≤ l.length then
    some (l.take offset ++ List.replicate amt 0 ++
          (l.drop offset).take (l.length - amt - offset))
  else none

/-! ## Claims C5, C10, C3 -/

/-- C5: for a buffer with consistent extent, an offset with
0 ≤ offset < mapSize and a length with offset + length ≤ mapSize,
collapse moves the bytes of [offset+length, end) down to
[offset, end-length), zero-fills the vacated tail of `length` bytes
(visible in `collapsedFull`, the extent right after the memmove/memset
pair), and decreases both the recorded mapping size and the recorded
file size by exactly `length`. -/
theorem collapse_in_range (f : MappedFile) (offset len : Nat)
    (hm : f.map_size = f.data.length)
    (h1 : offset < f.map_size) (h2 : offset + len ≤ f.map_size) :
    collapse_file f offset len true true =
      some ({ data := f.data.take offset ++ f.data.drop (offset + len),
              map_size := f.map_size - len,
              current_file_size := f.current_file_size - len }, 0) ∧
    collapsedFull f.data offset len =
      (f.data.take offset ++ f.data.drop (offset + len)) ++ List.replicate len 0 := by
  have hg : ¬((offset : Int) < 0 ∨ (f.map_size : Int) ≤ (offset : Nat)) := by
    push_neg
    exact ⟨by positivity, by exact_mod_cast h1⟩
  have htn : ((offset : Nat) : Int).toNat = offset := Int.toNat_natCast offset
  have hg2 : ¬ f.map_size < ((offset : Nat) : Int).toNat + len := by
    rw [htn]; omega
  have hlen : (f.data.take offset ++ f.data.drop (offset + len)).length
      = f.map_size - len := by
    rw [List.length_append, List.length_take, List.length_drop, ← hm]
    omega
  have hfull : (collapsedFull f.data offset len).take (f.map_size - len)
      = f.data.take offset ++ f.data.drop (offset + len) := by
    unfold collapsedFull
    rw [← hlen, List.take_append_of_le_length le_rfl,
        List.take_of_length_le le_rfl]
  refine ⟨?_, rfl⟩
  unfold collapse_file
  rw [if_neg hg, if_neg hg2]
  simp only [Bool.not_true, Bool.false_eq_true, if_false, htn, hfull]

/-- C10: calling collapse with an out-of-range offset (negative, or at
or past the mapping size) returns success (0) and leaves the buffer
contents and both size counters completely unchanged — no error is
signalled for the violated precondition. -/
theorem collapse_out_of_range (f : MappedFile) (offset : Int) (range : Nat)
    (mmapOk truncOk : Bool) (h : offset < 0 ∨ (f.map_size : Int) ≤ offset) :
    collapse_file f offset range mmapOk truncOk = some (f, 0) := by
  unfold collapse_file
  rw [if_pos h]

/-- Witness for collapse_in_range at a concrete input. -/
theorem collapse_in_range_witness :
    collapse_file ⟨[65, 66, 67, 68], 4, 4⟩ 1 2 true true =
      some (⟨[65, 68], 2, 2⟩, 0) := by
  have h := collapse_in_range ⟨[65, 66, 67, 68], 4, 4⟩ 1 2 (by decide)
    (by decide) (by decide)
  exact h.1

/-- Witness for collapse_out_of_range at a concrete input. -/
theorem collapse_out_of_range_witness :
    collapse_file ⟨[65, 66], 2, 2⟩ 2 1 true true = some (⟨[65, 66], 2, 2⟩, 0) :=
  collapse_out_of_range ⟨[65, 66], 2, 2⟩ 2 1 true true (by decide)

/-- C3 counterexample: starting from a consistent state, a collapse
whose remap step fails leaves map_size = 2 but current_file_size = 3,
and an extend whose remap step fails leaves map_size = 3 but
current_file_size = 5 — the recorded sizes diverge exactly when the
later remap step of the composite edit fails. -/
theorem size_invariant_broken_on_remap_failure :
    collapse_file ⟨[65, 66, 67], 3, 3⟩ 0 1 false true =
      some (⟨[66, 67, 0], 2, 3⟩, -1) ∧
    ¬ sizesConsistent ⟨[66, 67, 0], 2, 3⟩ ∧
    extend_file_and_map ⟨[65, 66, 67], 3, 3⟩ 2 true false =
      (⟨[65, 66, 67], 3, 5⟩, false) ∧
    ¬ sizesConsistent ⟨[65, 66, 67], 3, 5⟩ := by
  refine ⟨by decide, by decide, by decide, by decide⟩

/-- C3 (amended): the recorded mapping size stays equal to the
recorded file size across collapse and extend whenever the remap step
succeeds — including when posix_fallocate fails, when the out-of-range
guard fires, and even when the final ftruncate fails (its counter was
already decremented to match) — and shift_file_data touches neither
counter.  When the remap fails the two counters diverge
(size_invariant_broken_on_remap_failure). -/
theorem sizes_consistent_when_remap_succeeds (f : MappedFile)
    (hc : sizesConsistent f) :
    (∀ (offset : Int) (range : Nat) (truncOk : Bool) (g : MappedFile) (r : Int),
       collapse_file f offset range true truncOk = some (g, r) →
       sizesConsistent g) ∧
    (∀ (amt : Int) (allocOk : Bool) (g : MappedFile) (b : Bool),
       extend_file_and_map f amt allocOk true = (g, b) → sizesConsistent g) := by
  constructor
  · intro offset range truncOk g r h
    unfold collapse_file at h
    split at h
    · simp only [Option.some.injEq, Prod.mk.injEq] at h
      exact h.1 ▸ hc
    · split at h
      · exact absurd h (by simp)
      · simp only [Bool.not_true, Bool.false_eq_true, if_false] at h
        split at h <;>
        · simp only [Option.some.injEq, Prod.mk.injEq] at h
          rw [← h.1]
          unfold sizesConsistent at hc ⊢
          simp only []
          omega
  · intro amt allocOk g b h
    unfold extend_file_and_map at h
    split at h
    · cases h; exact hc
    · split at h
      · cases h; exact hc
      · simp only [Bool.not_true, Bool.false_eq_true, if_false] at h
        cases h
        unfold sizesConsistent at hc ⊢
        simp only []
        omega

/-- Witness for sizes_consistent_when_remap_succeeds at a concrete
consistent state. -/
theorem sizes_consistent_when_remap_succeeds_witness :
    sizesConsistent ⟨[65, 66], 2, 2⟩ ∧
    (∀ (offset : Int) (range : Nat) (truncOk : Bool) (g : MappedFile) (r : Int),
       collapse_file ⟨[65, 66], 2, 2⟩ offset range true truncOk = some (g, r) →
       sizesConsistent g) := by
  have h := sizes_consistent_when_remap_succeeds ⟨[65, 66], 2, 2⟩ (by decide)
  exact ⟨by decide, h.1⟩

/-! ## Buffer-level edits used by the text passes

Every collapse issued by the passes below is in range, so its effect
on the mapping contents is deletion of the byte range (see
collapse_in_range); eraseRange is that effect. -/

/-- Effect on the mapping contents of an in-range
`__collapse_file(f, off, range)`. -/
def eraseRange (l : List Nat) (off range : Nat) : List Nat :=
  l.take off ++ l.drop (off + range)

/-- eraseRange agrees with the collapse primitive on the data. -/
theorem eraseRange_eq_collapse (f : MappedFile) (off range : Nat)
    (hm : f.map_size = f.data.length)
    (h1 : off < f.map_size) (h2 : off + range ≤ f.map_size) (g : MappedFile)
    (hg : collapse_file f off range true true = some (g, 0)) :
    g.data = eraseRange f.data off range := by
  have h := (collapse_in_range f off range hm h1 h2).1
  rw [h] at hg
  simp only [Option.some.injEq, Prod.mk.injEq] at hg
  rw [← hg.1]
  rfl

/-- Witness for eraseRange_eq_collapse at a concrete input. -/
theorem eraseRange_eq_collapse_witness :
    ∃ g, collapse_file ⟨[65, 66, 67], 3, 3⟩ 1 1 true true = some (g, 0) ∧
      g.data = eraseRange [65, 66, 67] 1 1 := by
  refine ⟨⟨[65, 67], 2, 2⟩, by decide, ?_⟩
  exact eraseRange_eq_collapse ⟨[65, 66, 67], 3, 3⟩ 1 1 (by decide) (by decide)
    (by decide) ⟨[65, 67], 2, 2⟩ (by decide)

/-- Whitespace in the sense of __remove_extra_whitespace: space or tab. -/
def isWs (c : Nat) : Bool := c == 32 || c == 9

/-- The C idiom `while (*p == 0x20 || *p == 0x09) ++p`. -/
def skipWs (l : List Nat) (i : Nat) : Nat :=
  i + ((l.drop i).takeWhile isWs).length

/-- The C idiom `while (*p == 0x20 || *p == 0x09) --p` (backward).  The
modelled runs reach this only with a non-whitespace byte somewhere
below, so the clamp at 0 is never what stops the scan. -/
def backSkipWs (l : List Nat) : Nat → Nat
  | 0 => 0
  | p+1 => if isWs (byteAt l (p+1)) then backSkipWs l p else p+1

/-! ## The normalisation passes (__normalise_file and helpers) -/

/-- The scan loop of __remove_cr: find the next 0x0d from the cursor,
delete it with a 1-byte collapse, rescan from the same index. -/
def removeCrAux : Nat → List Nat → Nat → List Nat
  | 0, l, _ => l
  | fuel+1, l, pos =>
    match findFrom l 13 pos with
    | none => l
    | some i => removeCrAux fuel (eraseRange l i 1) i

/-- __remove_cr: strip every 0x0d byte. -/
def remove_cr (l : List Nat) : List Nat := removeCrAux (l.length + 1) l 0

/-- The loop of __remove_extra_whitespace.  At the top of each
iteration the cursor sits at a line start (in the defined runs):
a leading whitespace run there is collapsed; then the line's LF is
located and a whitespace run just before it is collapsed; the no-LF
branch trims trailing whitespace at the end of the buffer and stops.
The stale-index comparison `*save_p == 0x0a` after a collapse is
transcribed as in the C.  (When the buffer starts with an LF the C
reads one byte below the mapping — undefined; theorems below exclude
that input.) -/
def removeExtraWsAux : Nat → List Nat → Nat → List Nat
  | 0, l, _ => l
  | fuel+1, l, p =>
    if p < l.length then
      let q := skipWs l p
      let l1 := if q - p ≠ 0 then eraseRange l p (q - p) else l
      match findFrom l1 10 p with
      | none =>
        if isWs (byteAt l1 (l1.length - 1)) then
          let s := backSkipWs l1 (l1.length - 1) + 1
          eraseRange l1 s (l1.length - s)
        else l1
      | some i =>
        if isWs (byteAt l1 (i - 1)) then
          let s := backSkipWs l1 (i - 1) + 1
          let l2 := eraseRange l1 s (i - s)
          let p2 := if byteAt l2 i = 10 then i + 1 else s + 1
          removeExtraWsAux fuel l2 p2
        else
          removeExtraWsAux fuel l1 (i + 1)
    else l

/-- __remove_extra_whitespace: trim whitespace runs at line starts and
line ends (and at the very end of the buffer). -/
def remove_extra_whitespace (l : List Nat) : List Nat :=
  removeExtraWsAux (l.length + 1) l 0

/-- The loop of __unjustify_text: after each space, collapse the run
of further spaces that follows it. -/
def unjustifyAux : Nat → List Nat → Nat → List Nat
  | 0, l, _ => l
  | fuel+1, l, p =>
    if p < l.length then
      match findFrom l 32 p with
      | none => l
      | some i =>
        let s := i + 1
        let q := skipRun l 32 s
        let l2 := if q - s ≠ 0 then eraseRange l s (q - s) else l
        unjustifyAux fuel l2 s
    else l

/-- __unjustify_text (the static helper run by __normalise_file):
collapse every multi-space run to a single space. -/
def unjustify_text_pass (l : List Nat) : List Nat :=
  unjustifyAux (l.length + 1) l 0

/-- The tail loop of __normalise_file: find the next 0x2d; if an LF
follows, delete the two-byte pair with a collapse, scan backwards for
the nearest space and patch it to an LF; otherwise step over the
hyphen. -/
def removeHyphensAux : Nat → List Nat → Nat → List Nat
  | 0, l, _ => l
  | fuel+1, l, p =>
    if p < l.length then
      match findFrom l 45 p with
      | none => l
      | some i =>
        if byteAt l (i+1) = 10 then
          let l2 := eraseRange l i 2
          let j := scanBackFor l2 32 0 i
          if byteAt l2 j = 32 then
            removeHyphensAux fuel (l2.set j 10) (j+1)
          else removeHyphensAux fuel l2 j
        else removeHyphensAux fuel l (i+1)
    else l

/-- The hyphen-break removal stage of __normalise_file. -/
def removeHyphens (l : List Nat) : List Nat :=
  removeHyphensAux ((l.length + 1) * (l.length + 1)) l 0

/-- __normalise_file: strip CR, trim whitespace at line edges,
collapse multi-space runs, then remove "-\n" pairs. -/
def normalise_file (l : List Nat) : List Nat :=
  removeHyphens (unjustify_text_pass (remove_extra_whitespace (remove_cr l)))

/-! ## Paragraph breaks -/

/-- Lengths of the maximal LF runs of the buffer, in order. -/
def lfRunLens : List Nat → List Nat
  | [] => []
  | c :: cs =>
    if c = 10 then
      match cs with
      | 10 :: _ =>
        match lfRunLens cs with
        | k :: rest => (k+1) :: rest
        | [] => [1]
      | _ => 1 :: lfRunLens cs
    else lfRunLens cs

/-- Paragraph breaks: the byte counts of the maximal runs of 2 or more
consecutive LF bytes, in order. -/
def paragraphBreaks (l : List Nat) : List Nat :=
  (lfRunLens l).filter (fun k => 2 ≤ k)

section Scratch
example : normalise_file [97, 45, 32, 98, 45, 10, 99, 10] = [97, 45, 10, 98, 99, 10] := by decide
example : normalise_file [97, 45, 10, 98, 99, 10] = [97, 98, 99, 10] := by decide
example : normalise_file [98, 45, 10, 10, 99] = [98, 10, 99] := by decide
example : paragraphBreaks [98, 45, 10, 10, 99] = [2] := by decide
example : paragraphBreaks [98, 10, 99] = [] := by decide
example : normalise_file [97, 32, 45, 10, 45, 10] = [97, 10] := by decide
end Scratch

/-! ## Facts about the scan helpers -/

theorem byteAt_of_ge (l : List Nat) (i : Nat) (h : l.length ≤ i) : byteAt l i = 0 := by
  unfold byteAt
  rw [List.getD_eq_getElem?_getD, List.getElem?_eq_none h]
  rfl

theorem byteAt_of_lt (l : List Nat) (i : Nat) (h : i < l.length) : byteAt l i = l[i] := by
  unfold byteAt
  rw [List.getD_eq_getElem?_getD, List.getElem?_eq_getElem h]
  rfl

theorem findInAux_some_facts {l : List Nat} {c : Nat} :
    ∀ {k start i : Nat}, findInAux l c start k = some i →
      start ≤ i ∧ i < start + k ∧ i < l.length ∧ byteAt l i = c ∧
      ∀ j, start ≤ j → j < i → byteAt l j ≠ c := by
  intro k
  induction k with
  | zero => intro start i h; simp [findInAux] at h
  | succ k ih =>
    intro start i h
    unfold findInAux at h
    split at h
    · next hlt =>
      split at h
      · next heq =>
        cases h
        exact ⟨le_rfl, by omega, hlt, heq, fun j h1 h2 => absurd h1 (by omega)⟩
      · next hne =>
        obtain ⟨a, b, c1, d, e⟩ := ih h
        refine ⟨by omega, by omega, c1, d, fun j hj1 hj2 => ?_⟩
        rcases Nat.eq_or_lt_of_le hj1 with rfl | hgt
        · exact hne
        · exact e j hgt hj2
    · exact absurd h (by simp)

theorem findInAux_none_facts {l : List Nat} {c : Nat} :
    ∀ {k start : Nat}, findInAux l c start k = none →
      ∀ j, start ≤ j → j < start + k → j < l.length → byteAt l j ≠ c := by
  intro k
  induction k with
  | zero => intro start _ j h1 h2 _; omega
  | succ k ih =>
    intro start h j h1 h2 h3
    unfold findInAux at h
    split at h
    · split at h
      · exact absurd h (by simp)
      · next hne =>
        rcases Nat.eq_or_lt_of_le h1 with rfl | hgt
        · exact hne
        · exact ih h j hgt (by omega) h3
    · next hge => omega

theorem findInAux_eq_none {l : List Nat} {c : Nat} :
    ∀ {k start : Nat},
      (∀ j, start ≤ j → j < start + k → j < l.length → byteAt l j ≠ c) →
      findInAux l c start k = none := by
  intro k
  induction k with
  | zero => intro start _; rfl
  | succ k ih =>
    intro start h
    unfold findInAux
    split
    · next hlt =>
      rw [if_neg (h start le_rfl (by omega) hlt)]
      exact ih fun j h1 h2 h3 => h j (by omega) (by omega) h3
    · rfl

theorem findFrom_some_facts {l : List Nat} {c start i : Nat}
    (h : findFrom l c start = some i) :
    start ≤ i ∧ i < l.length ∧ byteAt l i = c ∧
      ∀ j, start ≤ j → j < i → byteAt l j ≠ c := by
  obtain ⟨a, _, c1, d, e⟩ := findInAux_some_facts h
  exact ⟨a, c1, d, e⟩

theorem findFrom_none_facts {l : List Nat} {c start : Nat}
    (h : findFrom l c start = none) :
    ∀ j, start ≤ j → j < l.length → byteAt l j ≠ c := by
  intro j h1 h2
  exact findInAux_none_facts h j h1 (by omega) h2

theorem findFrom_eq_none {l : List Nat} {c start : Nat}
    (h : ∀ j, start ≤ j → j < l.length → byteAt l j ≠ c) :
    findFrom l c start = none :=
  findInAux_eq_none fun j h1 _ h3 => h j h1 h3

theorem skipRun_eq_self {l : List Nat} {c p : Nat} (h : byteAt l p ≠ c) :
    skipRun l c p = p := by
  unfold skipRun
  rcases Nat.lt_or_ge p l.length with hlt | hge
  · rw [List.drop_eq_getElem_cons hlt, List.takeWhile_cons]
    rw [byteAt_of_lt l p hlt] at h
    simp [h]
  · rw [List.drop_eq_nil_of_le hge]
    rfl

theorem skipWs_eq_self {l : List Nat} {p : Nat} (h : ¬ isWs (byteAt l p)) :
    skipWs l p = p := by
  unfold skipWs
  rcases Nat.lt_or_ge p l.length with hlt | hge
  · rw [List.drop_eq_getElem_cons hlt, List.takeWhile_cons]
    rw [byteAt_of_lt l p hlt] at h
    simp only [Bool.not_eq_true] at h
    simp [h]
  · rw [List.drop_eq_nil_of_le hge]
    rfl

theorem scanBackFor_facts (l : List Nat) (c left : Nat) :
    ∀ p, scanBackFor l c left p ≤ p ∧
      (scanBackFor l c left p = 0 ∨ byteAt l (scanBackFor l c left p) = c ∨
        scanBackFor l c left p ≤ left) ∧
      ∀ m, scanBackFor l c left p < m → m ≤ p → byteAt l m ≠ c ∧ left < m := by
  intro p
  induction p with
  | zero => exact ⟨le_rfl, Or.inl rfl, fun m h1 h2 => absurd h1 (by omega)⟩
  | succ p ih =>
    unfold scanBackFor
    split
    · next hstop =>
      refine ⟨le_rfl, ?_, fun m h1 h2 => absurd h1 (by omega)⟩
      rcases hstop with h | h
      · exact Or.inr (Or.inl h)
      · exact Or.inr (Or.inr h)
    · next hgo =>
      push_neg at hgo
      obtain ⟨a, b, e⟩ := ih
      refine ⟨by omega, b, fun m h1 h2 => ?_⟩
      rcases Nat.eq_or_lt_of_le h2 with rfl | hlt
      · exact ⟨hgo.1, by omega⟩
      · exact e m h1 (by omega)

/-! ## Identity of the normalisation passes on already-normal input -/

/-- No whitespace byte adjacent to a line boundary: not at index 0,
not directly after an LF, not directly before an LF, not as the last
byte of the buffer. -/
def noEdgeWs (l : List Nat) : Prop :=
  ∀ i, i < l.length → isWs (byteAt l i) = true →
    0 < i ∧ byteAt l (i-1) ≠ 10 ∧ byteAt l (i+1) ≠ 10 ∧ i + 1 < l.length

instance (l : List Nat) : Decidable (noEdgeWs l) := by
  unfold noEdgeWs; infer_instance

theorem remove_cr_id (l : List Nat) (h : ∀ i, i < l.length → byteAt l i ≠ 13) :
    remove_cr l = l := by
  show removeCrAux (l.length + 1) l 0 = l
  unfold removeCrAux
  rw [findFrom_eq_none (fun j _ h2 => h j h2)]

theorem removeExtraWsAux_id (l : List Nat) (hws : noEdgeWs l)
    (h0 : byteAt l 0 ≠ 10) :
    ∀ fuel p, l.length - p < fuel → (p = 0 ∨ byteAt l (p-1) = 10) →
      removeExtraWsAux fuel l p = l := by
  intro fuel
  induction fuel with
  | zero => intro p hf _; exact absurd hf (by omega)
  | succ fuel ih =>
    intro p hf hstart
    unfold removeExtraWsAux
    split
    · next hp =>
      have hnws : ¬ isWs (byteAt l p) := by
        intro hcon
        obtain ⟨a, b, _, _⟩ := hws p hp hcon
        rcases hstart with rfl | hlf
        · omega
        · exact b hlf
      rw [skipWs_eq_self hnws]
      simp only [Nat.sub_self, ne_eq, not_true_eq_false, if_false]
      cases hfind : findFrom l 10 p with
      | none =>
        have hlast : ¬ isWs (byteAt l (l.length - 1)) := by
          intro hcon
          obtain ⟨_, _, _, d⟩ := hws (l.length - 1) (by omega) hcon
          omega
        simp [hlast]
      | some i =>
        obtain ⟨hpi, hilen, hlf, _⟩ := findFrom_some_facts hfind
        have hi1 : 1 ≤ i := by
          by_contra hcon
          push_neg at hcon
          interval_cases i
          exact h0 hlf
        have hprev : ¬ isWs (byteAt l (i - 1)) := by
          intro hcon
          obtain ⟨_, _, c1, _⟩ := hws (i-1) (by omega) hcon
          rw [Nat.sub_add_cancel hi1] at c1
          exact c1 hlf
        simp only [hprev, Bool.false_eq_true, if_false]
        exact ih (i+1) (by omega) (Or.inr (by simpa using hlf))
    · rfl

theorem remove_extra_whitespace_id (l : List Nat) (hws : noEdgeWs l)
    (h0 : byteAt l 0 ≠ 10) : remove_extra_whitespace l = l :=
  removeExtraWsAux_id l hws h0 (l.length + 1) 0 (by omega) (Or.inl rfl)

theorem unjustifyAux_id (l : List Nat)
    (hd : ∀ i, byteAt l i = 32 → byteAt l (i+1) ≠ 32) :
    ∀ fuel p, l.length - p < fuel → unjustifyAux fuel l p = l := by
  intro fuel
  induction fuel with
  | zero => intro p hf; exact absurd hf (by omega)
  | succ fuel ih =>
    intro p hf
    unfold unjustifyAux
    split
    · cases hfind : findFrom l 32 p with
      | none => rfl
      | some i =>
        obtain ⟨hpi, hilen, hsp, _⟩ := findFrom_some_facts hfind
        dsimp only
        rw [skipRun_eq_self (hd i hsp)]
        simp only [Nat.sub_self, ne_eq, not_true_eq_false, if_false]
        exact ih (i+1) (by omega)
    · rfl

theorem unjustify_text_pass_id (l : List Nat)
    (hd : ∀ i, byteAt l i = 32 → byteAt l (i+1) ≠ 32) :
    unjustify_text_pass l = l :=
  unjustifyAux_id l hd (l.length + 1) 0 (by omega)

theorem removeHyphensAux_id (l : List Nat) :
    ∀ fuel p, (∀ i, p ≤ i → ¬(byteAt l i = 45 ∧ byteAt l (i+1) = 10)) →
      l.length - p < fuel → removeHyphensAux fuel l p = l := by
  intro fuel
  induction fuel with
  | zero => intro p _ hf; exact absurd hf (by omega)
  | succ fuel ih =>
    intro p hno hf
    unfold removeHyphensAux
    split
    · cases hfind : findFrom l 45 p with
      | none => rfl
      | some i =>
        obtain ⟨hpi, hilen, hhy, _⟩ := findFrom_some_facts hfind
        have : byteAt l (i+1) ≠ 10 := fun hcon => hno i hpi ⟨hhy, hcon⟩
        simp only [this, if_false]
        exact ih (i+1) (fun j hj => hno j (by omega)) (by omega)
    · rfl

/-- Normal form: no CR byte, no whitespace adjacent to a line
boundary, no two consecutive spaces, no hyphen directly followed by an
LF, and the buffer does not begin with an LF (on that input
__remove_extra_whitespace would read one byte below the mapping). -/
def NormalForm (l : List Nat) : Prop :=
  (∀ i, i < l.length → byteAt l i ≠ 13) ∧
  noEdgeWs l ∧
  (∀ i, i < l.length → byteAt l i = 32 → byteAt l (i+1) ≠ 32) ∧
  (∀ i, i < l.length → ¬(byteAt l i = 45 ∧ byteAt l (i+1) = 10)) ∧
  byteAt l 0 ≠ 10

instance (l : List Nat) : Decidable (NormalForm l) := by
  unfold NormalForm; infer_instance

/-- C4 counterexample: the normalisation pipeline is not idempotent.
On "a- b-\nc\n" the hyphen-break removal rejoins "b-\nc" to "bc" and
turns the space before it into an LF, producing "a-\nbc\n" — which
contains a new "-\n" pair behind the cursor that is never rescanned.
A second run removes it, giving "abc\n". -/
theorem normalise_file_not_idempotent :
    normalise_file (normalise_file [97, 45, 32, 98, 45, 10, 99, 10]) ≠
      normalise_file [97, 45, 32, 98, 45, 10, 99, 10] := by decide

/-- C4 (amended): the normaliser is a no-op on buffers already in
normal form — no CR, no whitespace at line edges, no double space, no
hyphen-LF pair, not starting with an LF.  (Full idempotence fails:
normalise_file_not_idempotent shows the first run can itself create a
hyphen-LF pair behind the scan cursor.) -/
theorem normalise_file_fixed_on_normal_form (l : List Nat)
    (h : NormalForm l) : normalise_file l = l := by
  obtain ⟨hcr, hws, hsp, hhy, h0⟩ := h
  unfold normalise_file
  rw [remove_cr_id l hcr, remove_extra_whitespace_id l hws h0,
      unjustify_text_pass_id l (fun i hi => by
        rcases Nat.lt_or_ge i l.length with hlt | hge
        · exact hsp i hlt hi
        · rw [byteAt_of_ge l i hge] at hi; omega)]
  show removeHyphensAux ((l.length + 1) * (l.length + 1)) l 0 = l
  refine removeHyphensAux_id l _ 0 (fun i _ => ?_)
    (by
      have h2 : l.length + 1 ≤ (l.length + 1) * (l.length + 1) :=
        Nat.le_mul_of_pos_left _ (by omega)
      omega)
  rcases Nat.lt_or_ge i l.length with hlt | hge
  · exact hhy i hlt
  · rw [byteAt_of_ge l i hge]
    rintro ⟨hcon, -⟩
    omega

/-- Witness for normalise_file_fixed_on_normal_form on a concrete
normal-form buffer ("a b\n"). -/
theorem normalise_file_fixed_on_normal_form_witness :
    NormalForm [97, 32, 98, 10] ∧
      normalise_file [97, 32, 98, 10] = [97, 32, 98, 10] :=
  ⟨by decide, normalise_file_fixed_on_normal_form [97, 32, 98, 10] (by decide)⟩

/-! ## byteAt over list concatenation -/

theorem byteAt_append_left (l₁ l₂ : List Nat) (i : Nat) (h : i < l₁.length) :
    byteAt (l₁ ++ l₂) i = byteAt l₁ i := by
  unfold byteAt
  rw [List.getD_eq_getElem?_getD, List.getD_eq_getElem?_getD,
      List.getElem?_append]
  rw [if_pos h]

theorem byteAt_append_right (l₁ l₂ : List Nat) (i : Nat) (h : l₁.length ≤ i) :
    byteAt (l₁ ++ l₂) i = byteAt l₂ (i - l₁.length) := by
  unfold byteAt
  rw [List.getD_eq_getElem?_getD, List.getD_eq_getElem?_getD,
      List.getElem?_append]
  rw [if_neg (by omega)]

theorem eraseRange_append_mid (u v : List Nat) (a b : Nat) :
    eraseRange (u ++ a :: b :: v) u.length 2 = u ++ v := by
  unfold eraseRange
  rw [List.take_append_of_le_length le_rfl, List.take_of_length_le le_rfl,
      List.drop_append]
  rfl

/-- If byte c occurs at K ≥ start, the forward scan from start finds an
occurrence at or before K. -/
theorem findFrom_finds_le {l : List Nat} {c start K : Nat}
    (hK : byteAt l K = c) (hKl : K < l.length) (hsK : start ≤ K) :
    ∃ i, findFrom l c start = some i ∧ i ≤ K := by
  cases hfind : findFrom l c start with
  | none => exact absurd hK (findFrom_none_facts hfind K hsK hKl)
  | some i =>
    obtain ⟨_, _, _, hmin⟩ := findFrom_some_facts hfind
    refine ⟨i, rfl, ?_⟩
    by_contra hcon
    exact hmin K hsK (by omega) hK

/-- The backward space scan from K (with floor 0) stops exactly at the
greatest space index ≤ K when one exists. -/
theorem scanBackFor_eq_greatest {l : List Nat} {K jm : Nat}
    (hjm : byteAt l jm = 32) (hjK : jm ≤ K)
    (hmax : ∀ m, jm < m → m ≤ K → byteAt l m ≠ 32) :
    scanBackFor l 32 0 K = jm := by
  obtain ⟨ha, hb, hc⟩ := scanBackFor_facts l 32 0 K
  set r := scanBackFor l 32 0 K with hr
  rcases Nat.lt_trichotomy r jm with hlt | heq | hgt
  · exact absurd hjm ((hc jm hlt hjK).1)
  · exact heq
  · have hr32 : byteAt l r = 32 := by
      rcases hb with h | h | h
      · omega
      · exact h
      · omega
    exact absurd hr32 (hmax r hgt ha)

/-- The core single-occurrence lemma for the hyphen-removal loop: on a
buffer u ++ "-\n" ++ v with no other hyphen-LF pair, a space in u
(greatest index jm), and no space at the head of v, the loop deletes
the pair and patches the space at jm to an LF. -/
theorem removeHyphensAux_single_pair (u v : List Nat) (jm : Nat)
    (hu : ∀ i, i + 1 < u.length → ¬(byteAt u i = 45 ∧ byteAt u (i+1) = 10))
    (hv : ∀ i, i + 1 < v.length → ¬(byteAt v i = 45 ∧ byteAt v (i+1) = 10))
    (hj : ¬(byteAt u (u.length - 1) = 45 ∧ byteAt v 0 = 10))
    (hv0 : byteAt v 0 ≠ 32)
    (hjm : jm < u.length) (hjs : byteAt u jm = 32)
    (hjmax : ∀ m, jm < m → m < u.length → byteAt u m ≠ 32) :
    ∀ fuel p, p ≤ u.length →
      u.length - p + (u.length + v.length) + 3 < fuel →
      removeHyphensAux fuel (u ++ 45 :: 10 :: v) p = (u.set jm 10) ++ v := by
  set l := u ++ 45 :: 10 :: v with hl
  set n := u.length with hn
  have hlen : l.length = n + 2 + v.length := by
    rw [hl, List.length_append, List.length_cons, List.length_cons]
    omega
  have hbn : byteAt l n = 45 := by
    rw [hl, byteAt_append_right u _ n le_rfl, ← hn, Nat.sub_self]; rfl
  have hbn1 : byteAt l (n+1) = 10 := by
    rw [hl, byteAt_append_right u _ (n+1) (by omega), ← hn]
    have : n + 1 - n = 1 := by omega
    rw [this]; rfl
  have hbu : ∀ i, i < n → byteAt l i = byteAt u i := fun i hi => by
    rw [hl, byteAt_append_left u _ i (by omega)]
  -- after the collapse the buffer is u ++ v
  have herase : eraseRange l n 2 = u ++ v := eraseRange_append_mid u v 45 10
  -- the backward scan lands on jm
  have huv : ∀ i, i < n → byteAt (u ++ v) i = byteAt u i := fun i hi =>
    byteAt_append_left u v i (by omega)
  have huvr : ∀ i, byteAt (u ++ v) (n + i) = byteAt v i := fun i => by
    rw [byteAt_append_right u v _ (by omega), ← hn]
    congr 1
    omega
  have hscan : scanBackFor (u ++ v) 32 0 n = jm := by
    refine scanBackFor_eq_greatest ?_ (by omega) ?_
    · rw [huv jm hjm]; exact hjs
    · intro m hm1 hm2
      rcases Nat.lt_or_ge m n with hlt | hge
      · rw [huv m hlt]; exact hjmax m hm1 hlt
      · have : m = n := by omega
        subst this
        have := huvr 0
        rw [Nat.add_zero] at this
        rw [this]
        exact hv0
  -- the patched buffer has no hyphen-LF pair at or past jm+1
  have hclean : ∀ i, jm + 1 ≤ i →
      ¬(byteAt ((u.set jm 10) ++ v) i = 45 ∧
        byteAt ((u.set jm 10) ++ v) (i+1) = 10) := by
    intro i hi
    have hsetlen : (u.set jm 10).length = n := by simp [hn]
    have hgu : ∀ m, m < n → m ≠ jm → byteAt ((u.set jm 10) ++ v) m = byteAt u m := by
      intro m hm hne
      rw [byteAt_append_left _ v m (by omega)]
      unfold byteAt
      rw [List.getD_eq_getElem?_getD, List.getD_eq_getElem?_getD,
          List.getElem?_set_ne (by omega)]
    have hgv : ∀ m, n ≤ m → byteAt ((u.set jm 10) ++ v) m = byteAt v (m - n) := by
      intro m hm
      rw [byteAt_append_right _ v m (by omega), hsetlen]
    rcases Nat.lt_or_ge i n with hilt | hige
    · rcases Nat.lt_or_ge (i+1) n with hi1lt | hi1ge
      · rw [hgu i hilt (by omega), hgu (i+1) hi1lt (by omega)]
        exact hu i (by omega)
      · have hieq : i + 1 = n := by omega
        rw [hgu i hilt (by omega), hgv (i+1) (by omega)]
        have : i + 1 - n = 0 := by omega
        rw [this]
        intro hcon
        exact hj ⟨by rw [show n - 1 = i by omega]; exact hcon.1, hcon.2⟩
    · rw [hgv i hige, hgv (i+1) (by omega)]
      rcases Nat.lt_or_ge (i - n + 1) v.length with hvlt | hvge
      · rw [show i + 1 - n = i - n + 1 by omega]
        exact hv (i - n) (by omega)
      · rw [show i + 1 - n = i - n + 1 by omega, byteAt_of_ge v _ hvge]
        rintro ⟨-, hcon⟩
        omega
  -- main induction: skip hyphens inside u, then process the pair
  intro fuel
  induction fuel with
  | zero => intro p _ hf; exact absurd hf (by omega)
  | succ fuel ih =>
    intro p hp hf
    unfold removeHyphensAux
    rw [if_pos (by omega)]
    obtain ⟨i, hfind, hiK⟩ := findFrom_finds_le (c := 45) hbn (by omega) hp
    rw [hfind]
    dsimp only
    obtain ⟨hpi, hilen, h45, -⟩ := findFrom_some_facts hfind
    rcases Nat.lt_or_ge i n with hin | hin
    · -- a hyphen inside u: not followed by LF, step over it
      have hnot10 : byteAt l (i+1) ≠ 10 := by
        rcases Nat.lt_or_ge (i+1) n with h2 | h2
        · rw [hbu i hin] at h45
          rw [hbu (i+1) h2]
          intro hcon
          exact hu i (by omega) ⟨h45, hcon⟩
        · have : i + 1 = n := by omega
          rw [this, hbn]
          omega
      rw [if_neg hnot10]
      exact ih (i+1) (by omega) (by omega)
    · -- the pair itself
      have hieq : i = n := by omega
      subst hieq
      rw [if_pos hbn1, herase, hscan]
      have hjs2 : byteAt (u ++ v) jm = 32 := by rw [huv jm hjm]; exact hjs
      rw [if_pos hjs2]
      have hset : (u ++ v).set jm 10 = (u.set jm 10) ++ v := by
        rw [List.set_append]
        rw [if_pos (by omega)]
      rw [hset]
      refine removeHyphensAux_id _ fuel (jm+1) hclean ?_
      have : ((u.set jm 10) ++ v).length = n + v.length := by simp [hn]
      omega

/-- C7 counterexample: on "a -\n-\n" the two hyphen-LF pairs are both
deleted, but only one space exists; the second deletion finds no
space left to convert, so no new line break appears for it.  The
output "a\n" holds a single LF where the per-occurrence reading of the
claim requires each deleted pair to gain a converted break. -/
theorem hyphen_rejoin_conversion_missing :
    normalise_file [97, 32, 45, 10, 45, 10] = [97, 10] ∧
      ([97, 32, 45, 10, 45, 10] : List Nat).count 10 = 2 ∧
      ([97, 10] : List Nat).count 10 = 1 := by decide

/-- C7 (amended): for a buffer containing a single "-\n" pair —
u ++ "-\n" ++ v with no other hyphen-LF pair, at least one space in u
(the greatest at index jm), and no space at the head of v — the
hyphen-removal stage of normalisation deletes the two-byte pair via a
2-byte collapse and converts that nearest preceding space into an LF:
the result is u with position jm set to LF, followed directly by v.
In general the conversion only happens when a space is still present
at processing time; an earlier rejoin may have consumed it
(hyphen_rejoin_conversion_missing). -/
theorem removeHyphens_single_pair (u v : List Nat) (jm : Nat)
    (hu : ∀ i, i + 1 < u.length → ¬(byteAt u i = 45 ∧ byteAt u (i+1) = 10))
    (hv : ∀ i, i + 1 < v.length → ¬(byteAt v i = 45 ∧ byteAt v (i+1) = 10))
    (hj : ¬(byteAt u (u.length - 1) = 45 ∧ byteAt v 0 = 10))
    (hv0 : byteAt v 0 ≠ 32)
    (hjm : jm < u.length) (hjs : byteAt u jm = 32)
    (hjmax : ∀ m, jm < m → m < u.length → byteAt u m ≠ 32) :
    removeHyphens (u ++ 45 :: 10 :: v) = (u.set jm 10) ++ v := by
  unfold removeHyphens
  apply removeHyphensAux_single_pair u v jm hu hv hj hv0 hjm hjs hjmax _ 0
    (by omega)
  have hlen : (u ++ 45 :: 10 :: v).length = u.length + 2 + v.length := by
    simp
    omega
  set L := (u ++ 45 :: 10 :: v).length with hL
  have h2 : (L + 1) * (L + 1) = L * L + 2 * L + 1 := by ring
  have h3 : L ≤ L * L := Nat.le_mul_of_pos_left L (by omega)
  omega

/-- Witness for removeHyphens_single_pair: "a b-\nc\n" becomes
"a\nbc\n" — the pair is deleted, the word rejoined, and the break
moved to the space. -/
theorem removeHyphens_single_pair_witness :
    removeHyphens [97, 32, 98, 45, 10, 99, 10] = [97, 10, 98, 99, 10] := by
  have h := removeHyphens_single_pair [97, 32, 98] [99, 10] 1
    (by
      intro i hi
      have h2 : i < 2 := by simp at hi; omega
      interval_cases i <;> decide)
    (by
      intro i hi
      have h2 : i < 1 := by simp at hi; omega
      interval_cases i
      decide)
    (by decide) (by decide) (by decide) (by decide)
    (by
      intro m h1 h2
      have h3 : m < 3 := by simp at h2; omega
      interval_cases m
      decide)
  simpa using h

/-! ## Alignment passes -/

/-- The C idiom `while (*p == 0x0a) ++p` (also its bounded variant in
centre_align_text, which stops at endp exactly where the unbounded one
stops on the zero page). -/
def skipLF (l : List Nat) (i : Nat) : Nat := skipRun l 10 i

/-- The loop of centre_align_text.  Per line [p, lineEnd): extend by
delta = W - charCnt, then one shift+memset pair inserts
half1 = delta/2 + delta%2 leading spaces at the line start and a second
pair inserts half2 = delta - half1 trailing spaces at the line end
(together consuming the extension exactly), then the line's LF run is
skipped.  A line longer than W makes delta negative in the C: the
extend is a no-op but the shift is then called with a huge size_t
count — undefined behaviour, modelled as none.  Fuel 0 is none. -/
def centreAlignGo (W : Nat) : Nat → List Nat → Nat → Option (List Nat)
  | 0, _, _ => none
  | fuel+1, l, p =>
    if p < l.length then
      let lineEnd := (findFrom l 10 p).getD l.length
      let charCnt := lineEnd - p
      if W < charCnt then none
      else
        let delta := W - charCnt
        let half1 := delta / 2 + delta % 2
        let half2 := delta - half1
        let l2 := l.take p ++ List.replicate half1 32 ++
          ((l.drop p).take charCnt) ++ List.replicate half2 32 ++ l.drop lineEnd
        centreAlignGo W fuel l2 (skipLF l2 (lineEnd + delta))
    else some l

/-- centre_align_text with target width W. -/
def centre_align_text (W : Nat) (l : List Nat) : Option (List Nat) :=
  centreAlignGo W (l.length + 1) l 0

/-- The loop of right_align_text: per line, extend by
delta = W - charCnt and shift+memset delta leading spaces in at the
line start, then skip the LF run.  Negative delta is undefined
behaviour as in centre_align_text, modelled as none. -/
def rightAlignGo (W : Nat) : Nat → List Nat → Nat → Option (List Nat)
  | 0, _, _ => none
  | fuel+1, l, p =>
    if p < l.length then
      let lineEnd := (findFrom l 10 p).getD l.length
      let charCnt := lineEnd - p
      if W < charCnt then none
      else
        let delta := W - charCnt
        let l2 := l.take p ++ List.replicate delta 32 ++ l.drop p
        rightAlignGo W fuel l2 (skipLF l2 (lineEnd + delta))
    else some l

/-- right_align_text with target width W. -/
def right_align_text (W : Nat) (l : List Nat) : Option (List Nat) :=
  rightAlignGo W (l.length + 1) l 0

theorem findFrom_eq_first {l : List Nat} {c K : Nat}
    (hK : byteAt l K = c) (hKl : K < l.length)
    (hmin : ∀ j, j < K → byteAt l j ≠ c) :
    findFrom l c 0 = some K := by
  obtain ⟨i, hfind, hiK⟩ := findFrom_finds_le hK hKl (Nat.zero_le K)
  obtain ⟨-, -, hc, -⟩ := findFrom_some_facts hfind
  rcases Nat.eq_or_lt_of_le hiK with rfl | hlt
  · exact hfind
  · exact absurd hc (hmin i hlt)

theorem takeWhile_replicate_self (k c : Nat) :
    (List.replicate k c).takeWhile (· == c) = List.replicate k c := by
  induction k with
  | zero => rfl
  | succ k ih =>
    rw [List.replicate_succ, List.takeWhile_cons]
    simp [ih]

theorem skipRun_at_replicate (A : List Nat) (k c : Nat) :
    skipRun (A ++ List.replicate k c) c A.length = A.length + k := by
  unfold skipRun
  rw [List.drop_left, takeWhile_replicate_self, List.length_replicate]

theorem byteAt_single_line {c : List Nat} {k : Nat} (h10 : 10 ∉ c) :
    (∀ j, j < c.length → byteAt (c ++ List.replicate k 10) j ≠ 10) ∧
    (0 < k → byteAt (c ++ List.replicate k 10) c.length = 10) := by
  constructor
  · intro j hj
    rw [byteAt_append_left _ _ j hj, byteAt_of_lt c j hj]
    intro hcon
    exact h10 (hcon ▸ List.getElem_mem hj)
  · intro hk
    rw [byteAt_append_right _ _ _ le_rfl, Nat.sub_self]
    unfold byteAt
    rw [List.getD_eq_getElem?_getD,
        List.getElem?_eq_getElem (by simpa using hk)]
    simp

theorem lineScan_single_line {c : List Nat} {k : Nat} (h10 : 10 ∉ c) :
    (findFrom (c ++ List.replicate k 10) 10 0).getD
      (c ++ List.replicate k 10).length = c.length := by
  obtain ⟨hins, hend⟩ := byteAt_single_line (k := k) h10
  cases k with
  | zero =>
    rw [findFrom_eq_none (fun j _ hj => hins j (by simpa using hj))]
    simp
  | succ k =>
    rw [findFrom_eq_first (hend (by omega)) (by simp) (fun j hj => hins j hj)]
    rfl

/-- C9: centre-aligning a line of length charCount ≤ W inserts
half1 = delta/2 + delta%2 = ceil(delta/2) leading spaces and
half2 = delta - half1 trailing spaces around the line (delta = W -
charCount), leaving the trailing LF run untouched. -/
theorem centre_align_pads_line (W : Nat) (c : List Nat) (k : Nat)
    (h10 : 10 ∉ c) (hlen : c.length ≤ W) (hne : 0 < c.length + k) :
    centre_align_text W (c ++ List.replicate k 10) =
      some (List.replicate ((W - c.length) / 2 + (W - c.length) % 2) 32 ++ c ++
            List.replicate ((W - c.length) -
              ((W - c.length) / 2 + (W - c.length) % 2)) 32 ++
            List.replicate k 10) ∧
    (W - c.length) / 2 + (W - c.length) % 2 = (W - c.length + 1) / 2 := by
  refine ⟨?_, by omega⟩
  set delta := W - c.length with hdelta
  set half1 := delta / 2 + delta % 2 with hhalf1
  set half2 := delta - half1 with hhalf2
  set l := c ++ List.replicate k 10 with hl
  have hlenl : l.length = c.length + k := by rw [hl]; simp
  show centreAlignGo W (l.length + 1) l 0 = _
  unfold centreAlignGo
  rw [if_pos (by omega)]
  dsimp only
  rw [lineScan_single_line h10]
  rw [if_neg (by omega)]
  have htake : (l.drop 0).take (c.length - 0) = c := by
    rw [List.drop_zero, Nat.sub_zero, hl,
        List.take_append_of_le_length le_rfl, List.take_of_length_le le_rfl]
  have hdrop : l.drop c.length = List.replicate k 10 := by
    rw [hl, List.drop_left]
  rw [List.take_zero, htake, hdrop, List.nil_append]
  have hW : W - (c.length - 0) = delta := by omega
  rw [hW]
  set l2 := List.replicate half1 32 ++ c ++ List.replicate half2 32 ++
    List.replicate k 10 with hl2
  have hA : l2 = (List.replicate half1 32 ++ c ++ List.replicate half2 32) ++
      List.replicate k 10 := hl2
  have hAlen : (List.replicate half1 32 ++ c ++ List.replicate half2 32).length
      = c.length + delta := by
    simp
    omega
  have hskip : skipLF l2 (c.length + delta) = l2.length := by
    unfold skipLF
    rw [hA, ← hAlen, skipRun_at_replicate]
    simp
    omega
  rw [hskip]
  obtain ⟨m, hm⟩ : ∃ m, l.length = m + 1 := ⟨l.length - 1, by omega⟩
  rw [hm]
  unfold centreAlignGo
  rw [if_neg (by omega)]

/-- Witness for centre_align_pads_line: the spec scenario "hi\n" at
width 6 — delta = 4, half1 = 2, half2 = 2, exactly two leading and two
trailing spaces. -/
theorem centre_align_pads_line_witness :
    centre_align_text 6 [104, 105, 10] = some [32, 32, 104, 105, 32, 32, 10] := by
  have h := centre_align_pads_line 6 [104, 105] 1 (by decide) (by decide)
    (by decide)
  simpa using h.1

/-! ## Facts about insertion and the space-skip scans -/

theorem insertIdx_eq_take_cons_drop (x : Nat) :
    ∀ (i : Nat) (l : List Nat), i ≤ l.length →
      l.insertIdx i x = l.take i ++ x :: l.drop i := by
  intro i
  induction i with
  | zero => intro l _; simp
  | succ i ih =>
    intro l hl
    cases l with
    | nil => simp at hl
    | cons a t =>
      rw [List.insertIdx_succ_cons, ih t (by simpa using hl)]
      rfl

theorem byteAt_take (l : List Nat) (n j : Nat) (h : j < n) :
    byteAt (l.take n) j = byteAt l j := by
  unfold byteAt
  rw [List.getD_eq_getElem?_getD, List.getD_eq_getElem?_getD,
      List.getElem?_take, if_pos h]

theorem byteAt_drop (l : List Nat) (n j : Nat) :
    byteAt (l.drop n) j = byteAt l (n + j) := by
  unfold byteAt
  rw [List.getD_eq_getElem?_getD, List.getD_eq_getElem?_getD,
      List.getElem?_drop]

theorem byteAt_cons_succ (a : Nat) (t : List Nat) (j : Nat) :
    byteAt (a :: t) (j+1) = byteAt t j := rfl

theorem byteAt_cons_zero (a : Nat) (t : List Nat) :
    byteAt (a :: t) 0 = a := rfl

theorem byteAt_insertIdx_lt {l : List Nat} {i : Nat} (x : Nat) (j : Nat)
    (hi : i ≤ l.length) (hj : j < i) :
    byteAt (l.insertIdx i x) j = byteAt l j := by
  rw [insertIdx_eq_take_cons_drop x i l hi,
      byteAt_append_left _ _ j (by rw [List.length_take]; omega),
      byteAt_take l i j hj]

theorem byteAt_insertIdx_self {l : List Nat} {i : Nat} (x : Nat)
    (hi : i ≤ l.length) :
    byteAt (l.insertIdx i x) i = x := by
  rw [insertIdx_eq_take_cons_drop x i l hi,
      byteAt_append_right _ _ i (by rw [List.length_take]; omega)]
  rw [List.length_take, Nat.min_eq_left hi, Nat.sub_self]
  rfl

theorem byteAt_insertIdx_gt {l : List Nat} {i : Nat} (x : Nat) (j : Nat)
    (hi : i ≤ l.length) (hj : i < j) :
    byteAt (l.insertIdx i x) j = byteAt l (j - 1) := by
  rw [insertIdx_eq_take_cons_drop x i l hi,
      byteAt_append_right _ _ j (by rw [List.length_take]; omega)]
  rw [List.length_take, Nat.min_eq_left hi]
  have h1 : j - i = (j - i - 1) + 1 := by omega
  rw [h1, byteAt_cons_succ, byteAt_drop]
  congr 1
  omega

theorem length_insertIdx_le {l : List Nat} {i : Nat} (x : Nat)
    (hi : i ≤ l.length) : (l.insertIdx i x).length = l.length + 1 :=
  List.length_insertIdx i l hi

/-- Unfolding equation for skipRun (c ≠ 0 keeps the zero page from
counting as part of a run). -/
theorem skipRun_eq_step {l : List Nat} {c i : Nat} (hc : c ≠ 0)
    (h : byteAt l i = c) : skipRun l c i = skipRun l c (i+1) := by
  have hlt : i < l.length := by
    by_contra hcon
    push_neg at hcon
    rw [byteAt_of_ge l i hcon] at h
    omega
  unfold skipRun
  rw [List.drop_eq_getElem_cons hlt, List.takeWhile_cons]
  rw [byteAt_of_lt l i hlt] at h
  simp [h]
  omega

theorem skipRun_ge (l : List Nat) (c i : Nat) : i ≤ skipRun l c i := by
  unfold skipRun
  omega

theorem takeWhile_length_le (p : Nat → Bool) (l : List Nat) :
    (l.takeWhile p).length ≤ l.length := by
  induction l with
  | nil => simp
  | cons a t ih =>
    rw [List.takeWhile_cons]
    split
    · simpa using ih
    · simp

theorem skipRun_le_length (l : List Nat) (c i : Nat) (h : i ≤ l.length) :
    skipRun l c i ≤ l.length := by
  unfold skipRun
  have := takeWhile_length_le (· == c) (l.drop i)
  rw [List.length_drop] at this
  omega

theorem skipRun_stop {l : List Nat} {c : Nat} (hc : c ≠ 0) (i : Nat) :
    byteAt l (skipRun l c i) ≠ c := by
  have hmeas : ∀ d i, l.length - i ≤ d → byteAt l (skipRun l c i) ≠ c := by
    intro d
    induction d with
    | zero =>
      intro i hd
      rw [skipRun_eq_self (c := c) (by rw [byteAt_of_ge l i (by omega)]; omega),
          byteAt_of_ge l i (by omega)]
      omega
    | succ d ih =>
      intro i hd
      by_cases hcur : byteAt l i = c
      · have hlt : i < l.length := by
          by_contra hcon
          push_neg at hcon
          rw [byteAt_of_ge l i hcon] at hcur
          omega
        rw [skipRun_eq_step hc hcur]
        exact ih (i+1) (by omega)
      · rw [skipRun_eq_self hcur]
        exact hcur
  exact hmeas (l.length - i) i le_rfl

theorem skipRun_all_c {l : List Nat} {c : Nat} (hc : c ≠ 0) :
    ∀ i j, i ≤ j → j < skipRun l c i → byteAt l j = c := by
  have hmeas : ∀ d i j, l.length - i ≤ d → i ≤ j → j < skipRun l c i →
      byteAt l j = c := by
    intro d
    induction d with
    | zero =>
      intro i j hd hij hlt
      rw [skipRun_eq_self (c := c)
        (by rw [byteAt_of_ge l i (by omega)]; omega)] at hlt
      omega
    | succ d ih =>
      intro i j hd hij hlt
      by_cases hcur : byteAt l i = c
      · rcases Nat.eq_or_lt_of_le hij with rfl | hgt
        · exact hcur
        · have hilen : i < l.length := by
            by_contra hcon
            push_neg at hcon
            rw [byteAt_of_ge l i hcon] at hcur
            omega
          rw [skipRun_eq_step hc hcur] at hlt
          exact ih (i+1) j (by omega) (by omega) hlt
      · rw [skipRun_eq_self hcur] at hlt
        omega
  exact fun i j => hmeas (l.length - i) i j le_rfl

theorem skipRun_le_of_stop {l : List Nat} {c : Nat} (hc : c ≠ 0) {i K : Nat}
    (hK : byteAt l K ≠ c) (hiK : i ≤ K) : skipRun l c i ≤ K := by
  by_contra hcon
  push_neg at hcon
  exact hK (skipRun_all_c hc i K hiK hcon)

theorem backSkipSpaces_stop {l : List Nat} (h0 : byteAt l 0 ≠ 32) (p : Nat) :
    byteAt l (backSkipSpaces l p) ≠ 32 := by
  induction p with
  | zero => exact h0
  | succ p ih =>
    unfold backSkipSpaces
    split
    · exact ih
    · assumption

theorem backSkipSpaces_le (l : List Nat) (p : Nat) :
    backSkipSpaces l p ≤ p := by
  induction p with
  | zero => exact le_rfl
  | succ p ih =>
    unfold backSkipSpaces
    split
    · omega
    · exact le_rfl

theorem backSkipSpaces_ge {l : List Nat} {K : Nat} (hK : byteAt l K ≠ 32) :
    ∀ p, K ≤ p → K ≤ backSkipSpaces l p := by
  intro p
  induction p with
  | zero => intro h; simpa [backSkipSpaces] using h
  | succ p ih =>
    intro hKp
    unfold backSkipSpaces
    split
    · next hsp =>
      refine ih ?_
      rcases Nat.eq_or_lt_of_le hKp with rfl | h
      · exact absurd hsp hK
      · omega
    · exact hKp

/-! ## findIn (windowed memchr) facts -/

theorem findIn_some_facts {l : List Nat} {c start stop i : Nat}
    (h : findIn l c start stop = some i) :
    start ≤ i ∧ i < stop ∧ i < l.length ∧ byteAt l i = c ∧
      ∀ j, start ≤ j → j < i → byteAt l j ≠ c := by
  obtain ⟨a, b, c1, d, e⟩ := findInAux_some_facts h
  exact ⟨a, by omega, c1, d, e⟩

theorem findIn_none_facts {l : List Nat} {c start stop : Nat}
    (h : findIn l c start stop = none) :
    ∀ j, start ≤ j → j < stop → j < l.length → byteAt l j ≠ c := by
  intro j h1 h2 h3
  exact findInAux_none_facts h j h1 (by omega) h3

theorem findIn_finds_le {l : List Nat} {c start stop K : Nat}
    (hK : byteAt l K = c) (hKl : K < l.length) (hKs : K < stop)
    (hsK : start ≤ K) :
    ∃ i, findIn l c start stop = some i ∧ i ≤ K := by
  cases hfind : findIn l c start stop with
  | none => exact absurd hK (findIn_none_facts hfind K hsK hKs hKl)
  | some i =>
    obtain ⟨_, _, _, _, hmin⟩ := findIn_some_facts hfind
    refine ⟨i, rfl, ?_⟩
    by_contra hcon
    exact hmin K hsK (by omega) hK

/-! ## justify_text -/

/-- Shape of a justification window with content length m: the window
is a nonempty line (no LF, not starting or ending with a space, with
at least one space) followed by an LF run. -/
def ShapeM (w : List Nat) (m : Nat) : Prop :=
  0 < m ∧ m ≤ w.length ∧
  (∀ j, m ≤ j → j < w.length → byteAt w j = 10) ∧
  (∀ j, j < m → byteAt w j ≠ 10) ∧
  byteAt w 0 ≠ 32 ∧ byteAt w (m-1) ≠ 32 ∧
  ∃ s, s < m ∧ byteAt w s = 32

/-- Inserting a space at a space position of the window keeps the
shape (with content one longer), and the position is interior. -/
theorem ShapeM_insert {w : List Nat} {m i : Nat} (hs : ShapeM w m)
    (hi : byteAt w i = 32) :
    1 ≤ i ∧ i + 2 ≤ m ∧ i < w.length ∧
      ShapeM (w.insertIdx i 32) (m+1) := by
  obtain ⟨hm0, hmlen, hlf, hnlf, h0, hlast, s, hsm, hsp⟩ := hs
  have him : i < m := by
    by_contra hcon
    push_neg at hcon
    rcases Nat.lt_or_ge i w.length with hlt | hge
    · rw [hlf i hcon hlt] at hi; omega
    · rw [byteAt_of_ge w i hge] at hi; omega
  have hi1 : 1 ≤ i := by
    rcases Nat.eq_zero_or_pos i with rfl | h
    · exact absurd hi h0
    · exact h
  have hine : i ≠ m - 1 := fun hcon => hlast (hcon ▸ hi)
  have hilen : i < w.length := by omega
  have hle : i ≤ w.length := by omega
  refine ⟨hi1, by omega, hilen, ?_, ?_, ?_, ?_, ?_, ?_, ?_⟩
  · omega
  · rw [length_insertIdx_le 32 hle]; omega
  · intro j hj1 hj2
    rw [length_insertIdx_le 32 hle] at hj2
    rw [byteAt_insertIdx_gt 32 j hle (by omega)]
    exact hlf (j-1) (by omega) (by omega)
  · intro j hj
    rcases Nat.lt_trichotomy j i with h | rfl | h
    · rw [byteAt_insertIdx_lt 32 j hle h]
      exact hnlf j (by omega)
    · rw [byteAt_insertIdx_self 32 hle]
      omega
    · rw [byteAt_insertIdx_gt 32 j hle h]
      exact hnlf (j-1) (by omega)
  · rw [byteAt_insertIdx_lt 32 0 hle (by omega)]
    exact h0
  · have : m + 1 - 1 = m := by omega
    rw [this, byteAt_insertIdx_gt 32 m hle (by omega)]
    have : m - 1 = m - 1 := rfl
    exact hlast
  · exact ⟨i, by omega, byteAt_insertIdx_self 32 hle⟩

/-- One full sweep of pass 1 of justify_text over the window from
position p: find the next space, shift one extra space in
(`__shift_file_data(..., 1)` then `*p++ = 0x20`), skip the widened run
(`while (*p == 0x20) ++p`), repeat; the sweep ends when no space
remains ahead (in the C, p then reaches line_end and the quotient is
decremented). -/
def justifySweep : Nat → List Nat → Nat → List Nat
  | 0, w, _ => w
  | fuel+1, w, p =>
    match findFrom w 32 p with
    | none => w
    | some i =>
      justifySweep fuel (w.insertIdx i 32) (skipRun (w.insertIdx i 32) 32 (i+1))

/-- Pass 1 of justify_text: quotient full sweeps of the window, each
restarted from the line start. -/
def justifyPass1 : Nat → List Nat → List Nat
  | 0, w => w
  | q+1, w => justifyPass1 q (justifySweep (w.length + 1) w 0)

/-- Pass 2 of justify_text: the alternating-direction remainder loop.
State: window w, left and right cursors, direction sw
(false = forward scan from left, `_switch == 0`), remaining insertions
rem.  Forward finds the next space in [left, right) and inserts there;
backward scans down from right (floor left) and inserts at the space
found; a direction with no eligible gap resets both cursors to the
full window and flips.  Fuel 0 is none (the C loop still running). -/
def justifyPass2 : Nat → List Nat → Nat → Nat → Bool → Nat → Option (List Nat)
  | 0, _, _, _, _, _ => none
  | fuel+1, w, left, right, sw, rem =>
    if rem = 0 then some w
    else if sw = false then
      match findIn w 32 left right with
      | none => justifyPass2 fuel w 0 (w.length - 1) true rem
      | some i =>
        let w2 := w.insertIdx i 32
        justifyPass2 fuel w2 (skipRun w2 32 (i+1)) (right+1) true (rem-1)
    else
      let j := scanBackFor w 32 left right
      if j = left then justifyPass2 fuel w 0 (w.length - 1) false rem
      else
        let w2 := w.insertIdx j 32
        justifyPass2 fuel w2 left (backSkipSpaces w2 (j-1)) false (rem-1)

/-- Bool check used to mark the modelled domain of justifyGo: no two
adjacent spaces in the window. -/
def noDoubleSpaceB (w : List Nat) : Bool :=
  decide (∀ i, i < w.length → ¬(byteAt w i = 32 ∧ byteAt w (i+1) = 32))

/-- The line loop of justify_text (W is MAX_LENGTH; threshold = W/2).
Lines with charCnt = W or charCnt ≤ W/2 are left alone, as are lines
with no space.  Otherwise the window [lineStart, past-the-LF-run) is
extended by delta = W - charCnt and processed by pass 1 and pass 2.
The delta = quotient*holes + remainder insertions consume the per-line
extension exactly, so the buffer after the line is the untouched
prefix, the processed window, and the untouched tail shifted by delta.
Returns none where the C misbehaves or the model does not follow it:
charCnt > W makes delta negative in the C (the loop then never
terminates or walks past the mapping), and a window with a multi-space
gap would not consume its extension exactly (holes counts space bytes
but each sweep inserts one space per gap), leaving stray zero bytes
the reassembly below does not track. -/
def justifyGo (W : Nat) : Nat → List Nat → Nat → Option (List Nat)
  | 0, _, _ => none
  | fuel+1, l, p =>
    if p < l.length then
      let lineEndBase := (findFrom l 10 p).getD l.length
      let charCnt := lineEndBase - p
      let lineEnd := skipLF l lineEndBase
      if charCnt = W ∨ charCnt ≤ W / 2 then justifyGo W fuel l lineEnd
      else
        let w := (l.drop p).take (lineEnd - p)
        let holes := w.countP (· == 32)
        if holes = 0 then justifyGo W fuel l lineEnd
        else if W < charCnt then none
        else if noDoubleSpaceB w then
          let delta := W - charCnt
          let w1 := justifyPass1 (delta / holes) w
          match justifyPass2 (2 * (delta % holes) + 1) w1 0 (w1.length - 1)
              false (delta % holes) with
          | none => none
          | some w2 => justifyGo W fuel (l.take p ++ w2 ++ l.drop lineEnd)
              (lineEnd + delta)
        else none
    else some l

/-- justify_text with target width W (supplied by -L, or computed by
__get_length_longest_line when absent). -/
def justify_text (W : Nat) (l : List Nat) : Option (List Nat) :=
  justifyGo W (l.length + 1) l 0

section Scratch
-- the spec scenario: "The quick brown fox\n" justified to width 24
example : justify_text 24
    [84,104,101,32,113,117,105,99,107,32,98,114,111,119,110,32,102,111,120,10] =
    some [84,104,101,32,32,32,113,117,105,99,107,32,32,98,114,111,119,110,
          32,32,32,102,111,120,10] := by decide
end Scratch

theorem ShapeM_last {w : List Nat} {m : Nat} (hs : ShapeM w m) :
    byteAt w (w.length - 1) ≠ 32 := by
  obtain ⟨hm0, hmlen, hlf, hnlf, h0, hlast, -⟩ := hs
  rcases Nat.lt_or_ge (w.length - 1) m with h | h
  · have heq : w.length - 1 = m - 1 := by omega
    rw [heq]
    exact hlast
  · rw [hlf _ h (by omega)]
    omega

theorem ShapeM_interior_space {w : List Nat} {m : Nat} (hs : ShapeM w m) :
    ∃ s, 1 ≤ s ∧ s + 2 ≤ m ∧ s + 2 ≤ w.length ∧ byteAt w s = 32 := by
  obtain ⟨hm0, hmlen, hlf, hnlf, h0, hlast, s, hsm, hsp⟩ := hs
  have hs1 : 1 ≤ s := by
    rcases Nat.eq_zero_or_pos s with rfl | h
    · exact absurd hsp h0
    · exact h
  have : s ≠ m - 1 := fun hc => hlast (hc ▸ hsp)
  exact ⟨s, hs1, by omega, by omega, hsp⟩

/-- Invariants re-established by a forward insertion of pass 2. -/
theorem pass2_forward_step {w : List Nat} {m left right i : Nat}
    (hs : ShapeM w m) (hrlen : right < w.length)
    (hr32 : byteAt w right ≠ 32)
    (hfind : findIn w 32 left right = some i) :
    ShapeM (w.insertIdx i 32) (m+1) ∧
    (w.insertIdx i 32).length = w.length + 1 ∧
    skipRun (w.insertIdx i 32) 32 (i+1) ≤ right + 1 ∧
    right + 1 < (w.insertIdx i 32).length ∧
    byteAt (w.insertIdx i 32) (skipRun (w.insertIdx i 32) 32 (i+1)) ≠ 32 ∧
    byteAt (w.insertIdx i 32) (right+1) ≠ 32 := by
  obtain ⟨hli, hir, hilen, hsp, -⟩ := findIn_some_facts hfind
  obtain ⟨hi1, him, hilen2, hshape2⟩ := ShapeM_insert hs hsp
  have hle : i ≤ w.length := by omega
  have hlen2 : (w.insertIdx i 32).length = w.length + 1 :=
    length_insertIdx_le 32 hle
  have hr2 : byteAt (w.insertIdx i 32) (right+1) = byteAt w right := by
    have h := byteAt_insertIdx_gt 32 (right+1) hle (by omega)
    rw [Nat.add_sub_cancel] at h
    exact h
  have hstop : byteAt (w.insertIdx i 32) (right+1) ≠ 32 := by
    rw [hr2]; exact hr32
  refine ⟨hshape2, hlen2, ?_, by omega, skipRun_stop (by omega) (i+1), hstop⟩
  exact skipRun_le_of_stop (by omega) hstop (by omega)

/-- Invariants re-established by a backward insertion of pass 2. -/
theorem pass2_backward_step {w : List Nat} {m left right : Nat}
    (hs : ShapeM w m) (hlr : left ≤ right) (_hrlen : right < w.length)
    (hl32 : byteAt w left ≠ 32)
    (hne : scanBackFor w 32 left right ≠ left) :
    let j := scanBackFor w 32 left right
    byteAt w j = 32 ∧ left < j ∧
    ShapeM (w.insertIdx j 32) (m+1) ∧
    (w.insertIdx j 32).length = w.length + 1 ∧
    left ≤ backSkipSpaces (w.insertIdx j 32) (j-1) ∧
    backSkipSpaces (w.insertIdx j 32) (j-1) < (w.insertIdx j 32).length ∧
    byteAt (w.insertIdx j 32) left ≠ 32 ∧
    byteAt (w.insertIdx j 32) (backSkipSpaces (w.insertIdx j 32) (j-1)) ≠ 32 := by
  intro j
  obtain ⟨hjr, hstops, hpast⟩ := scanBackFor_facts w 32 left right
  have hjl : left < j := by
    rcases Nat.lt_trichotomy j left with h | h | h
    · exact absurd ((hpast left h hlr).2) (by omega)
    · exact absurd h hne
    · exact h
  have hj32 : byteAt w j = 32 := by
    rcases hstops with h | h | h
    · omega
    · exact h
    · omega
  obtain ⟨hj1, hjm, hjlen, hshape2⟩ := ShapeM_insert hs hj32
  have hle : j ≤ w.length := by omega
  have hlen2 : (w.insertIdx j 32).length = w.length + 1 :=
    length_insertIdx_le 32 hle
  have hl2 : byteAt (w.insertIdx j 32) left = byteAt w left :=
    byteAt_insertIdx_lt 32 left hle hjl
  have h02 : byteAt (w.insertIdx j 32) 0 ≠ 32 := by
    rw [byteAt_insertIdx_lt 32 0 hle (by omega)]
    exact hs.2.2.2.2.1
  refine ⟨hj32, hjl, hshape2, hlen2, ?_, ?_, by rw [hl2]; exact hl32,
    backSkipSpaces_stop h02 (j-1)⟩
  · exact backSkipSpaces_ge (by rw [hl2]; exact hl32) (j-1) (by omega)
  · have := backSkipSpaces_le (w.insertIdx j 32) (j-1)
    omega

/-- After a forward reset, the backward scan over the full window finds
a space strictly above the floor 0. -/
theorem pass2_reset_backward_finds {w : List Nat} {m : Nat} (hs : ShapeM w m) :
    scanBackFor w 32 0 (w.length - 1) ≠ 0 := by
  obtain ⟨s, hs1, hsm, hslen, hsp⟩ := ShapeM_interior_space hs
  intro hcon
  obtain ⟨-, -, hpast⟩ := scanBackFor_facts w 32 0 (w.length - 1)
  rw [hcon] at hpast
  exact (hpast s (by omega) (by omega)).1 hsp

/-- After a backward reset, the forward scan over the full window finds
a space. -/
theorem pass2_reset_forward_finds {w : List Nat} {m : Nat} (hs : ShapeM w m) :
    ∃ i, findIn w 32 0 (w.length - 1) = some i := by
  obtain ⟨s, hs1, hsm, hslen, hsp⟩ := ShapeM_interior_space hs
  obtain ⟨i, hfind, -⟩ := @findIn_finds_le w 32 0 (w.length - 1) s
    hsp (by omega) (by omega) (by omega)
  exact ⟨i, hfind⟩

/-- C8 core: from any state satisfying the window invariants, pass 2
terminates within fuel 2*rem + 1 having inserted exactly rem extra
spaces (each iteration either inserts one space, or resets once and
the very next scan is guaranteed to insert). -/
theorem justifyPass2_total :
    ∀ rem fuel w m left right sw,
      ShapeM w m → left ≤ right → right < w.length →
      byteAt w left ≠ 32 → byteAt w right ≠ 32 →
      2 * rem + 1 ≤ fuel →
      ∃ w2, justifyPass2 fuel w left right sw rem = some w2 ∧
        w2.length = w.length + rem ∧ ShapeM w2 (m + rem) := by
  intro rem
  induction rem using Nat.strong_induction_on with
  | _ rem ih =>
    intro fuel w m left right sw hs hlr hrlen hl32 hr32 hfuel
    obtain ⟨f, rfl⟩ : ∃ f, fuel = f + 1 := ⟨fuel - 1, by omega⟩
    rcases Nat.eq_zero_or_pos rem with rfl | hrem
    · refine ⟨w, ?_, by omega, by simpa using hs⟩
      unfold justifyPass2
      rw [if_pos rfl]
    have hrne : rem ≠ 0 := by omega
    cases sw with
    | false =>
      cases hfind : findIn w 32 left right with
      | some i =>
        obtain ⟨hsh2, hlen2, ha, hb, hc, hd⟩ :=
          pass2_forward_step hs hrlen hr32 hfind
        obtain ⟨w3, hrun, hlen3, hsh3⟩ := ih (rem - 1) (by omega) f _ (m+1)
          _ _ true hsh2 ha (by omega) hc hd (by omega)
        refine ⟨w3, ?_, by omega, by
          have : m + 1 + (rem - 1) = m + rem := by omega
          rw [this] at hsh3
          exact hsh3⟩
        unfold justifyPass2
        rw [if_neg hrne]
        simp only [Bool.false_eq_true, if_true, if_pos rfl]
        rw [hfind]
        exact hrun
      | none =>
        -- reset, then the backward scan is guaranteed to insert
        obtain ⟨f2, rfl⟩ : ∃ f2, f = f2 + 1 := ⟨f - 1, by omega⟩
        have hjne : scanBackFor w 32 0 (w.length - 1) ≠ 0 :=
          pass2_reset_backward_finds hs
        have hstep := @pass2_backward_step w m 0 (w.length - 1) hs
          (by omega) (by omega) hs.2.2.2.2.1 hjne
        obtain ⟨hj32, hjl, hsh2, hlen2, ha, hb, hc, hd⟩ := hstep
        obtain ⟨w3, hrun, hlen3, hsh3⟩ := ih (rem - 1) (by omega) f2 _ (m+1)
          _ _ false hsh2 ha hb hc hd (by omega)
        refine ⟨w3, ?_, by omega, by
          have : m + 1 + (rem - 1) = m + rem := by omega
          rw [this] at hsh3
          exact hsh3⟩
        unfold justifyPass2
        rw [if_neg hrne]
        simp only [Bool.false_eq_true, if_true, if_pos rfl]
        rw [hfind]
        unfold justifyPass2
        rw [if_neg hrne]
        simp only [Bool.true_eq_false, if_false]
        rw [if_neg hjne]
        exact hrun
    | true =>
      by_cases hj : scanBackFor w 32 left right = left
      · -- reset, then the forward scan is guaranteed to insert
        obtain ⟨f2, rfl⟩ : ∃ f2, f = f2 + 1 := ⟨f - 1, by omega⟩
        obtain ⟨i, hfind⟩ := pass2_reset_forward_finds hs
        have hwlast : byteAt w (w.length - 1) ≠ 32 := ShapeM_last hs
        have hstep := @pass2_forward_step w m 0 (w.length - 1) i hs
          (by
            obtain ⟨hm0, hmlen, -⟩ := hs
            omega) hwlast hfind
        obtain ⟨hsh2, hlen2, ha, hb, hc, hd⟩ := hstep
        obtain ⟨w3, hrun, hlen3, hsh3⟩ := ih (rem - 1) (by omega) f2 _ (m+1)
          _ _ true hsh2 ha hb hc hd (by omega)
        refine ⟨w3, ?_, by omega, by
          have : m + 1 + (rem - 1) = m + rem := by omega
          rw [this] at hsh3
          exact hsh3⟩
        unfold justifyPass2
        rw [if_neg hrne]
        simp only [Bool.true_eq_false, if_false]
        rw [if_pos hj]
        unfold justifyPass2
        rw [if_neg hrne]
        simp only [Bool.false_eq_true, if_true, if_pos rfl]
        rw [hfind]
        exact hrun
      · have hstep := pass2_backward_step hs hlr hrlen hl32 hj
        obtain ⟨hj32, hjl, hsh2, hlen2, ha, hb, hc, hd⟩ := hstep
        obtain ⟨w3, hrun, hlen3, hsh3⟩ := ih (rem - 1) (by omega) f _ (m+1)
          _ _ false hsh2 ha hb hc hd (by omega)
        refine ⟨w3, ?_, by omega, by
          have : m + 1 + (rem - 1) = m + rem := by omega
          rw [this] at hsh3
          exact hsh3⟩
        unfold justifyPass2
        rw [if_neg hrne]
        simp only [Bool.true_eq_false, if_false]
        rw [if_neg hj]
        exact hrun

instance (w : List Nat) (m : Nat) : Decidable (ShapeM w m) := by
  unfold ShapeM; infer_instance

/-- C8: for a line window in shape (content with no LF, not starting
or ending with a space, holding at least one interior space, followed
by its LF run), the alternating-direction remainder-distribution loop
started as in the C (left at the line start, right at line_end - 1,
forward direction first) terminates — fuel 2*remainder + 1 iterations
suffice — after inserting exactly `remainder` extra spaces. -/
theorem justifyPass2_terminates (w : List Nat) (m rem : Nat)
    (hs : ShapeM w m) :
    ∃ w2, justifyPass2 (2 * rem + 1) w 0 (w.length - 1) false rem = some w2 ∧
      w2.length = w.length + rem := by
  have h0 : byteAt w 0 ≠ 32 := hs.2.2.2.2.1
  have hlast := ShapeM_last hs
  have hlen : 0 < w.length := by
    obtain ⟨a, b, -⟩ := hs
    omega
  obtain ⟨w2, hrun, hl, -⟩ := justifyPass2_total rem (2*rem+1) w m 0
    (w.length - 1) false hs (by omega) (by omega) h0 hlast le_rfl
  exact ⟨w2, hrun, hl⟩

/-- Witness for justifyPass2_terminates: the window "a b c\n" with
remainder 1 gains exactly one space. -/
theorem justifyPass2_terminates_witness :
    ShapeM [97, 32, 98, 32, 99, 10] 5 ∧
    ∃ w2, justifyPass2 3 [97, 32, 98, 32, 99, 10] 0 5 false 1 = some w2 ∧
      w2.length = 7 := by
  refine ⟨by decide, ?_⟩
  exact justifyPass2_terminates [97, 32, 98, 32, 99, 10] 5 1 (by decide)

/-! ## Structured view of a line for the pass-1 count

A line window is a word, then alternating gaps and words, then the LF
run; pass 1's sweep adds exactly one space to each gap. -/

/-- The part of a window after its first word: alternating (gap size,
word) segments, then the LF run. -/
def tailSeg : List (Nat × List Nat) → Nat → List Nat
  | [], k => List.replicate k 10
  | (g, wd) :: rest, k => List.replicate g 32 ++ wd ++ tailSeg rest k

/-- A word: nonempty, no space, no LF. -/
def WordOk (wd : List Nat) : Prop :=
  wd ≠ [] ∧ ∀ x ∈ wd, x ≠ 32 ∧ x ≠ 10

/-- Well-formed tail: every gap nonempty, every word a word. -/
def TailOk (rest : List (Nat × List Nat)) : Prop :=
  ∀ gw ∈ rest, 1 ≤ gw.1 ∧ WordOk gw.2

theorem tailSeg_length_ge (rest : List (Nat × List Nat)) (k : Nat)
    (h : TailOk rest) : rest.length ≤ (tailSeg rest k).length := by
  induction rest with
  | nil => simp [tailSeg]
  | cons gw rest ih =>
    obtain ⟨hg, hwne, -⟩ := h gw (by simp)
    have ih2 := ih (fun x hx => h x (by simp [hx]))
    obtain ⟨g, wd⟩ := gw
    simp only [tailSeg, List.length_cons, List.length_append,
      List.length_replicate]
    have : 1 ≤ wd.length := by
      cases wd with
      | nil => simp at hwne
      | cons a t => simp
    omega

theorem byteAt_replicate_lt (n c j : Nat) (h : j < n) :
    byteAt (List.replicate n c) j = c := by
  rw [byteAt_of_lt _ j (by simpa using h)]
  simp

theorem byteAt_mem {l : List Nat} {i : Nat} (h : i < l.length) :
    byteAt l i ∈ l := by
  rw [byteAt_of_lt l i h]
  exact List.getElem_mem h

theorem findFrom_eq_first_from {l : List Nat} {c start K : Nat}
    (hK : byteAt l K = c) (hKl : K < l.length) (hsK : start ≤ K)
    (hmin : ∀ j, start ≤ j → j < K → byteAt l j ≠ c) :
    findFrom l c start = some K := by
  obtain ⟨i, hfind, hiK⟩ := findFrom_finds_le hK hKl hsK
  obtain ⟨hsi, -, hic, -⟩ := findFrom_some_facts hfind
  rcases Nat.eq_or_lt_of_le hiK with rfl | hlt
  · exact hfind
  · exact absurd hic (hmin i hsi hlt)


theorem skipRun_ge_of_run {l : List Nat} {c : Nat} (hc : c ≠ 0) :
    ∀ n q, (∀ j, q ≤ j → j < q + n → byteAt l j = c) →
      q + n ≤ skipRun l c q := by
  intro n
  induction n with
  | zero => intro q _; simpa using skipRun_ge l c q
  | succ n ih =>
    intro q hrun
    have hq : byteAt l q = c := hrun q le_rfl (by omega)
    rw [skipRun_eq_step hc hq]
    have := ih (q+1) (fun j h1 h2 => hrun j (by omega) (by omega))
    omega

/-- The exact landing point of a space-run skip: from q through a run
of n spaces ending strictly before a non-space at q + n. -/
theorem skipRun_exact {l : List Nat} {q n : Nat}
    (hrun : ∀ j, q ≤ j → j < q + n → byteAt l j = 32)
    (hstop : byteAt l (q + n) ≠ 32) :
    skipRun l 32 q = q + n := by
  have h1 : q + n ≤ skipRun l 32 q :=
    skipRun_ge_of_run (by omega) n q hrun
  have h2 : skipRun l 32 q ≤ q + n :=
    skipRun_le_of_stop (by omega) hstop (by omega)
  omega

/-- Pass-1 sweep specification: starting at the first unprocessed word
(buffer A ++ Wd ++ tailSeg rest k, cursor at A.length), the sweep adds
exactly one space to each remaining gap. -/
theorem justifySweep_words :
    ∀ (rest : List (Nat × List Nat)) (A Wd : List Nat) (k fuel : Nat),
      WordOk Wd → TailOk rest → rest.length < fuel →
      justifySweep fuel (A ++ Wd ++ tailSeg rest k) A.length =
        A ++ Wd ++ tailSeg (rest.map (fun gw => (gw.1 + 1, gw.2))) k := by
  intro rest
  induction rest with
  | nil =>
    intro A Wd k fuel hWd _ hfuel
    obtain ⟨f, rfl⟩ : ∃ f, fuel = f + 1 := ⟨fuel - 1, by omega⟩
    unfold justifySweep
    have hassoc : A ++ Wd ++ tailSeg [] k = A ++ (Wd ++ tailSeg [] k) := by
      simp [List.append_assoc]
    have hnone : findFrom (A ++ Wd ++ tailSeg [] k) 32 A.length = none := by
      refine findFrom_eq_none fun j h1 h2 => ?_
      rw [hassoc] at h2 ⊢
      rw [byteAt_append_right A _ j h1]
      simp only [List.length_append] at h2
      have hjlen : j - A.length < (Wd ++ tailSeg [] k).length := by
        simp only [List.length_append]
        omega
      intro hcon
      have hmem := byteAt_mem hjlen
      rw [hcon] at hmem
      rcases List.mem_append.mp hmem with h | h
      · exact (hWd.2 32 h).1 rfl
      · rw [show tailSeg [] k = List.replicate k 10 from rfl,
            List.mem_replicate] at h
        omega
    rw [hnone]
    rfl
  | cons gw rest ih =>
    intro A Wd k fuel hWd htail hfuel
    obtain ⟨g, wd2⟩ := gw
    obtain ⟨hg1, hwd2⟩ := htail (g, wd2) (by simp)
    obtain ⟨f, rfl⟩ : ∃ f, fuel = f + 1 := ⟨fuel - 1, by omega⟩
    unfold justifySweep
    set B := A ++ Wd with hB
    have hBlen : B.length = A.length + Wd.length := by
      rw [hB, List.length_append]
    have hassoc : A ++ Wd ++ tailSeg ((g, wd2) :: rest) k =
        B ++ (List.replicate g 32 ++ (wd2 ++ tailSeg rest k)) := by
      rw [hB, show tailSeg ((g, wd2) :: rest) k =
            List.replicate g 32 ++ wd2 ++ tailSeg rest k from rfl]
      simp [List.append_assoc]
    -- the first space ahead of the cursor is the gap start at B.length
    have hgb : byteAt (A ++ Wd ++ tailSeg ((g, wd2) :: rest) k) B.length
        = 32 := by
      rw [hassoc, byteAt_append_right B _ B.length le_rfl, Nat.sub_self,
          byteAt_append_left _ _ 0 (by simpa using hg1)]
      exact byteAt_replicate_lt g 32 0 hg1
    have hblen : B.length <
        (A ++ Wd ++ tailSeg ((g, wd2) :: rest) k).length := by
      rw [hassoc]
      simp only [List.length_append, List.length_replicate]
      have : 1 ≤ wd2.length := by
        cases wd2 with
        | nil => exact absurd rfl hwd2.1
        | cons a t => simp
      omega
    have hmin : ∀ j, A.length ≤ j → j < B.length →
        byteAt (A ++ Wd ++ tailSeg ((g, wd2) :: rest) k) j ≠ 32 := by
      intro j h1 h2
      have hassoc2 : A ++ Wd ++ tailSeg ((g, wd2) :: rest) k =
          A ++ (Wd ++ tailSeg ((g, wd2) :: rest) k) := by
        simp [List.append_assoc]
      rw [hassoc2, byteAt_append_right A _ j h1,
          byteAt_append_left _ _ _ (by omega)]
      intro hcon
      have hmem := byteAt_mem (l := Wd) (i := j - A.length) (by omega)
      rw [hcon] at hmem
      exact (hWd.2 32 hmem).1 rfl
    have hfind : findFrom (A ++ Wd ++ tailSeg ((g, wd2) :: rest) k) 32
        A.length = some B.length :=
      findFrom_eq_first_from hgb hblen (by omega) hmin
    rw [hfind]
    dsimp only
    -- the insertion turns the gap of g spaces into g+1
    set w0 := A ++ Wd ++ tailSeg ((g, wd2) :: rest) k with hw0
    have htakeB : w0.take B.length = B := by
      rw [hassoc, List.take_append_of_le_length le_rfl,
          List.take_of_length_le le_rfl]
    have hdropB : w0.drop B.length = List.replicate g 32 ++
        (wd2 ++ tailSeg rest k) := by
      rw [hassoc, List.drop_left]
    have hins : w0.insertIdx B.length 32 =
        B ++ (List.replicate (g+1) 32 ++ (wd2 ++ tailSeg rest k)) := by
      rw [insertIdx_eq_take_cons_drop 32 B.length w0 (by omega),
          htakeB, hdropB,
          show List.replicate (g+1) 32 = 32 :: List.replicate g 32 from rfl]
      simp [List.append_assoc]
    rw [hins]
    set w1 := B ++ (List.replicate (g+1) 32 ++ (wd2 ++ tailSeg rest k))
      with hw1
    -- the space skip after the insertion lands on the start of wd2
    have hrunb : ∀ j, B.length ≤ j → j < B.length + (g + 1) →
        byteAt w1 j = 32 := by
      intro j h1 h2
      rw [hw1, byteAt_append_right B _ j h1,
          byteAt_append_left _ _ _ (by rw [List.length_replicate]; omega)]
      exact byteAt_replicate_lt (g+1) 32 _ (by omega)
    have hstopb : byteAt w1 (B.length + (g + 1)) ≠ 32 := by
      rw [hw1, byteAt_append_right B _ _ (by omega),
          show B.length + (g+1) - B.length = g + 1 by omega,
          byteAt_append_right _ _ _ (by rw [List.length_replicate]),
          List.length_replicate, Nat.sub_self]
      obtain ⟨hne, hx⟩ := hwd2
      cases wd2 with
      | nil => exact absurd rfl hne
      | cons a t =>
        rw [byteAt_append_left _ _ 0 (by simp), byteAt_cons_zero]
        exact (hx a (by simp)).1
    have hskip : skipRun w1 32 (B.length + 1) = B.length + (g + 1) := by
      have h := skipRun_exact (l := w1) (q := B.length + 1) (n := g)
        (fun j h1 h2 => hrunb j (by omega) (by omega))
        (by rw [show B.length + 1 + g = B.length + (g+1) by omega]
            exact hstopb)
      omega
    rw [hskip]
    -- recurse from the start of wd2 with the processed prefix grown
    have hw1A2 : w1 = (B ++ List.replicate (g+1) 32) ++ wd2 ++
        tailSeg rest k := by
      rw [hw1]
      simp [List.append_assoc]
    have hA2len : B.length + (g + 1) =
        (B ++ List.replicate (g+1) 32).length := by
      simp
    rw [hw1A2, hA2len, ih (B ++ List.replicate (g+1) 32) wd2 k f hwd2
      (fun x hx => htail x (by simp [hx])) (by simpa using hfuel)]
    rw [hB, List.map_cons,
        show tailSeg ((g + 1, wd2) ::
            rest.map (fun gw => (gw.1 + 1, gw.2))) k =
          List.replicate (g+1) 32 ++ wd2 ++
            tailSeg (rest.map (fun gw => (gw.1 + 1, gw.2))) k from rfl]
    simp [List.append_assoc]

theorem tailSeg_map_add_length (rest : List (Nat × List Nat)) (k q : Nat) :
    (tailSeg (rest.map (fun gw => (gw.1 + q, gw.2))) k).length =
      (tailSeg rest k).length + q * rest.length := by
  induction rest with
  | nil => simp [tailSeg]
  | cons gw rest ih =>
    obtain ⟨g, wd⟩ := gw
    simp only [List.map_cons, tailSeg, List.length_append,
      List.length_replicate, List.length_cons, ih]
    ring

theorem map_add_map_add (rest : List (Nat × List Nat)) (a b : Nat) :
    (rest.map (fun gw => (gw.1 + a, gw.2))).map
        (fun gw => (gw.1 + b, gw.2)) =
      rest.map (fun gw => (gw.1 + (a + b), gw.2)) := by
  rw [List.map_map]
  refine List.map_congr_left fun gw _ => ?_
  simp only [Function.comp_apply]
  rw [Nat.add_assoc]

theorem TailOk_map_add (rest : List (Nat × List Nat)) (q : Nat)
    (h : TailOk rest) : TailOk (rest.map (fun gw => (gw.1 + q, gw.2))) := by
  intro gw hgw
  obtain ⟨x, hx, rfl⟩ := List.mem_map.mp hgw
  obtain ⟨h1, h2⟩ := h x hx
  exact ⟨by omega, h2⟩

/-- Pass-1 specification: quotient sweeps add quotient spaces to every
gap of the line. -/
theorem justifyPass1_words (q : Nat) (w0 : List Nat)
    (rest : List (Nat × List Nat)) (k : Nat)
    (hw0 : WordOk w0) (ht : TailOk rest) :
    justifyPass1 q (w0 ++ tailSeg rest k) =
      w0 ++ tailSeg (rest.map (fun gw => (gw.1 + q, gw.2))) k := by
  induction q generalizing rest with
  | zero =>
    show w0 ++ tailSeg rest k = _
    congr 1
    have hmapid : rest.map (fun gw => (gw.1 + 0, gw.2)) = rest := by
      induction rest with
      | nil => rfl
      | cons x t iht => simp [iht, Prod.ext_iff]
    rw [hmapid]
  | succ q ih =>
    show justifyPass1 q
        (justifySweep ((w0 ++ tailSeg rest k).length + 1)
          (w0 ++ tailSeg rest k) 0) = _
    have hfb : rest.length < (w0 ++ tailSeg rest k).length + 1 := by
      have := tailSeg_length_ge rest k ht
      rw [List.length_append]
      omega
    have hsw := justifySweep_words rest [] w0 k
      ((w0 ++ tailSeg rest k).length + 1) hw0 ht (by simpa using hfb)
    simp only [List.nil_append, List.length_nil] at hsw
    rw [hsw, ih (rest.map (fun gw => (gw.1 + 1, gw.2)))
      (TailOk_map_add rest 1 ht), map_add_map_add]
    have : 1 + q = q + 1 := by omega
    rw [this]

/-- Line normal form for the justification theorems: nonempty, no LF,
no space at either end, no two adjacent spaces. -/
def LineNF (c : List Nat) : Prop :=
  c ≠ [] ∧ 10 ∉ c ∧ byteAt c 0 ≠ 32 ∧ byteAt c (c.length - 1) ≠ 32 ∧
  ∀ i, i < c.length → ¬(byteAt c i = 32 ∧ byteAt c (i+1) = 32)

instance (c : List Nat) : Decidable (LineNF c) := by
  unfold LineNF; infer_instance

theorem not_mem_of_byteAt_ne {l : List Nat} {v : Nat}
    (h : ∀ j, j < l.length → byteAt l j ≠ v) : v ∉ l := by
  intro hmem
  obtain ⟨j, hj, rfl⟩ := List.mem_iff_getElem.mp hmem
  exact h j hj (byteAt_of_lt l j hj)

theorem byteAt_ne_of_not_mem {l : List Nat} {v : Nat} (h : v ∉ l) :
    ∀ j, j < l.length → byteAt l j ≠ v := by
  intro j hj hcon
  rw [byteAt_of_lt l j hj] at hcon
  exact h (hcon ▸ List.getElem_mem hj)

/-- Every normal-form line splits into a first word and alternating
single-space gaps and words; the space count is the gap count. -/
theorem lineNF_decompose_aux :
    ∀ (n : Nat) (c : List Nat), c.length ≤ n → LineNF c →
      ∃ w0 rest, WordOk w0 ∧ TailOk rest ∧
        (∀ k, c ++ List.replicate k 10 = w0 ++ tailSeg rest k) ∧
        c.countP (· == 32) = rest.length := by
  intro n
  induction n with
  | zero =>
    intro c hc hnf
    exact absurd (List.length_eq_zero.mp (by omega)) hnf.1
  | succ n ih =>
    intro c hc hnf
    obtain ⟨hne, h10, h0, hlast, hnd⟩ := hnf
    cases hfind : findFrom c 32 0 with
    | none =>
      refine ⟨c, [], ⟨hne, fun x hx => ?_⟩, fun gw hgw => absurd hgw (by simp),
        fun k => rfl, ?_⟩
      · obtain ⟨j, hj, rfl⟩ := List.mem_iff_getElem.mp hx
        refine ⟨?_, fun hcon => h10 (hcon ▸ List.getElem_mem hj)⟩
        intro hcon
        exact findFrom_none_facts hfind j (by omega) hj
          (by rw [byteAt_of_lt c j hj]; exact hcon)
      · have hz : c.countP (· == 32) = 0 := by
          rw [List.countP_eq_zero]
          intro x hx hcon
          obtain ⟨j, hj, rfl⟩ := List.mem_iff_getElem.mp hx
          exact findFrom_none_facts hfind j (by omega) hj
            (by rw [byteAt_of_lt c j hj]; simpa using hcon)
        rw [hz]
        rfl
    | some i =>
      obtain ⟨-, hilen, hi32, hmin⟩ := findFrom_some_facts hfind
      have hi1 : 1 ≤ i := by
        rcases Nat.eq_zero_or_pos i with rfl | h
        · exact absurd hi32 h0
        · exact h
      have hine : i ≠ c.length - 1 := fun hcon => hlast (hcon ▸ hi32)
      have hi2 : i + 1 < c.length := by omega
      have hnext : byteAt c (i+1) ≠ 32 := fun hcon =>
        hnd i (by omega) ⟨hi32, hcon⟩
      -- split c at the space
      have hsplit : c = c.take i ++ 32 :: c.drop (i+1) := by
        conv_lhs => rw [← List.take_append_drop i c]
        rw [List.drop_eq_getElem_cons hilen]
        congr 2
        rw [← byteAt_of_lt c i hilen]
        exact hi32
      set cr := c.drop (i+1) with hcr
      have hcrlen : cr.length = c.length - (i+1) := by
        rw [hcr, List.length_drop]
      have hcrnf : LineNF cr := by
        refine ⟨?_, ?_, ?_, ?_, ?_⟩
        · intro hcon
          have hz : cr.length = 0 := by rw [hcon]; rfl
          omega
        · intro hmem
          exact h10 (List.mem_of_mem_drop hmem)
        · rw [hcr, byteAt_drop]
          simpa using hnext
        · rw [hcr, byteAt_drop]
          rw [show i + 1 + (cr.length - 1) = c.length - 1 by omega]
          exact hlast
        · intro j hj
          rw [hcr, byteAt_drop, byteAt_drop]
          rw [hcrlen] at hj
          rw [show i + 1 + (j + 1) = (i + 1 + j) + 1 from rfl]
          exact hnd (i + 1 + j) (by omega)

      obtain ⟨w0, rest, hw0, hrest, heq, hcount⟩ :=
        ih cr (by omega) hcrnf
      refine ⟨c.take i, (1, w0) :: rest, ⟨?_, ?_⟩, ?_, ?_, ?_⟩
      · intro hcon
        have hlen0 : (c.take i).length = 0 := by rw [hcon]; rfl
        rw [List.length_take] at hlen0
        omega
      · intro x hx
        obtain ⟨j, hj, rfl⟩ := List.mem_iff_getElem.mp hx
        rw [List.length_take] at hj
        have hji : j < i := by omega
        have hbj : (c.take i)[j] = byteAt c j := by
          rw [← byteAt_of_lt (c.take i) j (by rw [List.length_take]; omega),
              byteAt_take c i j hji]
        rw [hbj]
        exact ⟨hmin j (by omega) hji,
          byteAt_ne_of_not_mem h10 j (by omega)⟩
      · intro gw hgw
        rcases List.mem_cons.mp hgw with rfl | h
        · exact ⟨le_rfl, hw0⟩
        · exact hrest gw h
      · intro k
        conv_lhs => rw [hsplit]
        have h1 : (c.take i ++ 32 :: cr) ++ List.replicate k 10 =
            c.take i ++ (32 :: (cr ++ List.replicate k 10)) := by
          simp
        rw [h1, heq k]
        rfl
      · conv_lhs => rw [hsplit]
        rw [List.countP_append, List.countP_cons]
        have hc0 : (c.take i).countP (· == 32) = 0 := by
          rw [List.countP_eq_zero]
          intro x hx hcon
          obtain ⟨j, hj, rfl⟩ := List.mem_iff_getElem.mp hx
          rw [List.length_take] at hj
          have hji : j < i := by omega
          have hbj : (c.take i)[j] = byteAt c j := by
            rw [← byteAt_of_lt (c.take i) j (by rw [List.length_take]; omega),
                byteAt_take c i j hji]
          rw [hbj] at hcon
          exact hmin j (by omega) hji (by simpa using hcon)
        rw [hc0, hcount]
        simp

theorem lineNF_decompose (c : List Nat) (hnf : LineNF c) :
    ∃ w0 rest, WordOk w0 ∧ TailOk rest ∧
      (∀ k, c ++ List.replicate k 10 = w0 ++ tailSeg rest k) ∧
      c.countP (· == 32) = rest.length :=
  lineNF_decompose_aux c.length c le_rfl hnf

theorem skipRun_exact_at {l : List Nat} {v q n : Nat} (hv : v ≠ 0)
    (hrun : ∀ j, q ≤ j → j < q + n → byteAt l j = v)
    (hstop : byteAt l (q + n) ≠ v) :
    skipRun l v q = q + n := by
  have h1 : q + n ≤ skipRun l v q := skipRun_ge_of_run hv n q hrun
  have h2 : skipRun l v q ≤ q + n := skipRun_le_of_stop hv hstop (by omega)
  omega

theorem countP_insertIdx (w : List Nat) (i v : Nat) (hi : i ≤ w.length)
    (p : Nat → Bool) :
    (w.insertIdx i v).countP p = w.countP p + (if p v then 1 else 0) := by
  rw [insertIdx_eq_take_cons_drop v i w hi, List.countP_append,
      List.countP_cons]
  have : (w.take i ++ w.drop i).countP p
      = (w.take i).countP p + (w.drop i).countP p :=
    List.countP_append p (w.take i) (w.drop i)
  rw [List.take_append_drop] at this
  omega

theorem justifySweep_countP (p : Nat → Bool) (hp : p 32 = false) :
    ∀ fuel w q, (justifySweep fuel w q).countP p = w.countP p := by
  intro fuel
  induction fuel with
  | zero => intro w q; rfl
  | succ fuel ih =>
    intro w q
    unfold justifySweep
    cases hfind : findFrom w 32 q with
    | none => rfl
    | some i =>
      obtain ⟨-, hilen, -, -⟩ := findFrom_some_facts hfind
      show (justifySweep fuel (w.insertIdx i 32)
        (skipRun (w.insertIdx i 32) 32 (i + 1))).countP p = w.countP p
      rw [ih, countP_insertIdx w i 32 (by omega) p, hp]
      simp

theorem justifyPass1_countP (p : Nat → Bool) (hp : p 32 = false) (q : Nat) :
    ∀ w, (justifyPass1 q w).countP p = w.countP p := by
  induction q with
  | zero => intro w; rfl
  | succ q ih =>
    intro w
    have hstep : justifyPass1 (q + 1) w
        = justifyPass1 q (justifySweep (w.length + 1) w 0) := rfl
    rw [hstep, ih, justifySweep_countP p hp]

theorem byteAt_space_lt {w : List Nat} {i : Nat} (h : byteAt w i = 32) :
    i < w.length := by
  by_contra hcon
  push_neg at hcon
  rw [byteAt_of_ge w i hcon] at h
  omega

theorem justifyPass2_countP (p : Nat → Bool) (hp : p 32 = false) :
    ∀ fuel w left right sw rem w2,
      justifyPass2 fuel w left right sw rem = some w2 →
      w2.countP p = w.countP p := by
  intro fuel
  induction fuel with
  | zero => intro w left right sw rem w2 h; exact absurd h (by simp [justifyPass2])
  | succ fuel ih =>
    intro w left right sw rem w2 h
    unfold justifyPass2 at h
    by_cases hrem : rem = 0
    · rw [if_pos hrem] at h
      cases h
      rfl
    rw [if_neg hrem] at h
    by_cases hsw : sw = false
    · rw [if_pos hsw] at h
      cases hfind : findIn w 32 left right with
      | none =>
        rw [hfind] at h
        exact ih _ _ _ _ _ _ h
      | some i =>
        rw [hfind] at h
        obtain ⟨-, -, hilen, -, -⟩ := findIn_some_facts hfind
        have := ih _ _ _ _ _ _ h
        rw [this, countP_insertIdx w i 32 (by omega) p, hp]
        simp
    · rw [if_neg hsw] at h
      by_cases hj : scanBackFor w 32 left right = left
      · rw [if_pos hj] at h
        exact ih _ _ _ _ _ _ h
      · rw [if_neg hj] at h
        have hrec := ih _ _ _ _ _ _ h
        rw [hrec]
        rcases le_or_lt (scanBackFor w 32 left right) w.length with hle | hgt
        · rw [countP_insertIdx w _ 32 hle p, hp]
          simp
        · rw [List.insertIdx_of_length_lt w 32 _ hgt]

theorem countP_space_add (l : List Nat) :
    l.countP (· == 32) + l.countP (fun b => !(b == 32)) = l.length := by
  induction l with
  | nil => rfl
  | cons a t ih =>
    simp only [List.countP_cons, List.length_cons]
    by_cases h : a = 32
    · subst h
      simp
      omega
    · simp [h]
      omega

theorem countP_line (c : List Nat) (k : Nat) :
    (c ++ List.replicate k 10).countP (· == 32) = c.countP (· == 32) := by
  rw [List.countP_append]
  have hz : (List.replicate k 10).countP (· == 32) = 0 := by
    rw [List.countP_eq_zero]
    intro a ha
    rw [List.eq_of_mem_replicate ha]
    simp
  omega

theorem ShapeM_of_lineNF {c : List Nat} (k : Nat) (hnf : LineNF c)
    (hsp : 0 < c.countP (· == 32)) :
    ShapeM (c ++ List.replicate k 10) c.length := by
  obtain ⟨hne, h10, h0, hlast, hnd⟩ := hnf
  have hclen : 0 < c.length := by
    cases c with
    | nil => exact absurd rfl hne
    | cons a t => simp
  have hwlen : (c ++ List.replicate k 10).length = c.length + k := by simp
  refine ⟨hclen, by simp, ?_, ?_, ?_, ?_, ?_⟩
  · intro j hj1 hj2
    rw [byteAt_append_right c _ j hj1]
    rw [hwlen] at hj2
    exact byteAt_replicate_lt k 10 _ (by omega)
  · intro j hj
    rw [byteAt_append_left c _ j hj]
    exact byteAt_ne_of_not_mem h10 j hj
  · rw [byteAt_append_left c _ 0 hclen]
    exact h0
  · rw [byteAt_append_left c _ _ (by omega)]
    exact hlast
  · obtain ⟨a, ha, hpa⟩ := List.countP_pos_iff.mp hsp
    obtain ⟨j, hj, rfl⟩ := List.mem_iff_getElem.mp ha
    refine ⟨j, hj, ?_⟩
    rw [byteAt_append_left c _ j hj, byteAt_of_lt c j hj]
    simpa using hpa

theorem justifySweep_ShapeM :
    ∀ fuel w p m, ShapeM w m →
      ∃ m2, ShapeM (justifySweep fuel w p) m2 ∧
        m2 + w.length = m + (justifySweep fuel w p).length := by
  intro fuel
  induction fuel with
  | zero => intro w p m hs; exact ⟨m, hs, rfl⟩
  | succ fuel ih =>
    intro w p m hs
    unfold justifySweep
    cases hfind : findFrom w 32 p with
    | none =>
      exact ⟨m, hs, rfl⟩
    | some i =>
      obtain ⟨-, -, hsp, -⟩ := findFrom_some_facts hfind
      obtain ⟨-, -, hilen, hsh2⟩ := ShapeM_insert hs hsp
      obtain ⟨m2, hsh3, hlen3⟩ := ih (w.insertIdx i 32) _ (m+1) hsh2
      refine ⟨m2, hsh3, ?_⟩
      show m2 + w.length = m + (justifySweep fuel (List.insertIdx i 32 w)
        (skipRun (List.insertIdx i 32 w) 32 (i + 1))).length
      rw [length_insertIdx_le 32 (by omega)] at hlen3
      omega

theorem justifyPass1_ShapeM (q : Nat) :
    ∀ (w : List Nat) (m : Nat), ShapeM w m →
      ∃ m2, ShapeM (justifyPass1 q w) m2 ∧
        m2 + w.length = m + (justifyPass1 q w).length := by
  induction q with
  | zero => intro w m hs; exact ⟨m, hs, rfl⟩
  | succ q ih =>
    intro w m hs
    have hstep : justifyPass1 (q + 1) w
        = justifyPass1 q (justifySweep (w.length + 1) w 0) := rfl
    obtain ⟨m1, hs1, hl1⟩ := justifySweep_ShapeM (w.length + 1) w 0 m hs
    obtain ⟨m2, hs2, hl2⟩ := ih _ m1 hs1
    rw [hstep]
    exact ⟨m2, hs2, by omega⟩

theorem ShapeM_split {w : List Nat} {m : Nat} (hs : ShapeM w m) :
    w = w.take m ++ List.replicate (w.length - m) 10 ∧ 10 ∉ w.take m ∧
      (w.take m).length = m := by
  obtain ⟨hm0, hmlen, hlf, hnlf, -⟩ := hs
  have htl : (w.take m).length = m := by
    rw [List.length_take]
    omega
  refine ⟨?_, ?_, htl⟩
  · refine List.ext_getElem ?_ ?_
    · rw [List.length_append, List.length_replicate, htl]
      omega
    · intro i h1 h2
      rw [← byteAt_of_lt w i h1, ← byteAt_of_lt _ i h2]
      rcases Nat.lt_or_ge i m with hlt | hge
      · rw [byteAt_append_left _ _ i (by rw [htl]; omega),
            byteAt_take w m i hlt]
      · rw [byteAt_append_right _ _ i (by rw [htl]; omega), htl,
            byteAt_replicate_lt _ 10 _ (by omega), hlf i hge h1]
  · intro hmem
    obtain ⟨j, hj, hjv⟩ := List.mem_iff_getElem.mp hmem
    rw [htl] at hj
    have : byteAt w j = 10 := by
      rw [← byteAt_take w m j hj, byteAt_of_lt _ j (by rw [htl]; omega)]
      exact hjv
    exact hnlf j hj this

/-- Per-line behaviour of justify_text on a stretched line: pass 1
adds quotient spaces to each of the holes gaps, pass 2 adds the
remainder, and the result is a line of length charCount + delta
followed by the untouched LF run. -/
theorem justify_line_core (W : Nat) (c : List Nat) (k : Nat)
    (hnf : LineNF c) (hsp : 0 < c.countP (· == 32)) :
    ∃ w2, justifyPass2
        (2 * ((W - c.length) % ((c ++ List.replicate k 10).countP (· == 32))) + 1)
        (justifyPass1
          ((W - c.length) / ((c ++ List.replicate k 10).countP (· == 32)))
          (c ++ List.replicate k 10))
        0
        ((justifyPass1
          ((W - c.length) / ((c ++ List.replicate k 10).countP (· == 32)))
          (c ++ List.replicate k 10)).length - 1)
        false
        ((W - c.length) % ((c ++ List.replicate k 10).countP (· == 32)))
        = some w2 ∧
      w2.length = (c ++ List.replicate k 10).length + (W - c.length) ∧
      ∃ c2, w2 = c2 ++ List.replicate k 10 ∧ 10 ∉ c2 ∧
        c2.length = c.length + (W - c.length) ∧
        c2.countP (· == 32) = c.countP (· == 32) + (W - c.length) := by
  set w := c ++ List.replicate k 10 with hw
  set delta := W - c.length with hdelta
  have hholes : w.countP (· == 32) = c.countP (· == 32) := countP_line c k
  set holes := w.countP (· == 32) with hholesdef
  set q := delta / holes with hq
  set rem := delta % holes with hrem
  have hwlen : w.length = c.length + k := by rw [hw]; simp
  -- pass 1 via the word decomposition
  obtain ⟨w0, rest, hw0, hrest, heq, hcount⟩ := lineNF_decompose c hnf
  have hrl : rest.length = holes := by rw [hholes, ← hcount]
  have hp1 : justifyPass1 q w = w0 ++
      tailSeg (rest.map (fun gw => (gw.1 + q, gw.2))) k := by
    rw [hw, heq k]
    exact justifyPass1_words q w0 rest k hw0 hrest
  have hwl0 : w.length = w0.length + (tailSeg rest k).length := by
    rw [hw, heq k, List.length_append]
  have hp1len : (justifyPass1 q w).length = w.length + q * holes := by
    rw [hp1, List.length_append, tailSeg_map_add_length, hrl, hwl0]
    omega
  -- shape through pass 1
  have hs0 : ShapeM w c.length := ShapeM_of_lineNF k hnf hsp
  obtain ⟨m1, hs1, hm1⟩ := justifyPass1_ShapeM q w c.length hs0
  have hm1v : m1 = c.length + q * holes := by
    rw [hp1len] at hm1
    omega
  -- pass 2
  have h0b : byteAt (justifyPass1 q w) 0 ≠ 32 := hs1.2.2.2.2.1
  have hlastb := ShapeM_last hs1
  have hlenb : 0 < (justifyPass1 q w).length := by
    obtain ⟨a, b, -⟩ := hs1
    omega
  obtain ⟨w2, hrun, hl2, hs2⟩ := justifyPass2_total rem (2 * rem + 1)
    (justifyPass1 q w) m1 0 ((justifyPass1 q w).length - 1) false hs1
    (by omega) (by omega) h0b hlastb le_rfl
  have hdm : q * holes + rem = delta := by
    rw [hq, hrem, Nat.mul_comm]
    exact Nat.div_add_mod delta holes
  obtain ⟨hsplit, hnotin, htl⟩ := ShapeM_split hs2
  have hk : w2.length - (m1 + rem) = k := by
    rw [hl2, hp1len, hm1v, hwlen]
    omega
  have hsplit2 : w2 = w2.take (m1 + rem) ++ List.replicate k 10 := by
    rw [← hk]
    exact hsplit
  have hq32 : (fun b => !(b == 32)) 32 = false := by simp
  have hpres := justifyPass2_countP (fun b => !(b == 32)) hq32 _ _ _ _ _ _ _ hrun
  rw [justifyPass1_countP (fun b => !(b == 32)) hq32] at hpres
  have ha2 := countP_space_add w2
  have ha1 := countP_space_add w
  have hlen2 : w2.length = w.length + delta := by
    rw [hl2, hp1len]
    omega
  have hspc : (w2.take (m1 + rem)).countP (· == 32)
      = c.countP (· == 32) + delta := by
    have e1 := countP_line (w2.take (m1 + rem)) k
    rw [← hsplit2] at e1
    omega
  exact ⟨w2, hrun, by rw [hl2, hp1len]; omega, w2.take (m1 + rem), hsplit2,
    hnotin, by rw [htl, hm1v]; omega, hspc⟩

/-- A buffer as a list of (line content, LF-run length) segments. -/
def linesJoined : List (List Nat × Nat) → List Nat
  | [] => []
  | (c, k) :: rest => c ++ (List.replicate k 10 ++ linesJoined rest)

/-- Well-formed segments for width W: each content is a normal-form
line of length at most W, and every segment but possibly the last has
at least one LF. -/
def SegsWf (W : Nat) : List (List Nat × Nat) → Prop
  | [] => True
  | (c, k) :: rest =>
    LineNF c ∧ c.length ≤ W ∧ (rest = [] ∨ 1 ≤ k) ∧ SegsWf W rest

instance instDecidableSegsWf (W : Nat) :
    ∀ segs, Decidable (SegsWf W segs)
  | [] => isTrue trivial
  | (c, k) :: rest =>
    haveI := instDecidableSegsWf W rest
    show Decidable (LineNF c ∧ c.length ≤ W ∧ (rest = [] ∨ 1 ≤ k) ∧
      SegsWf W rest) from inferInstance

/-- A line justify_text stretches: length differs from W, above the
W/2 floor, and with at least one interior space. -/
def needsStretch (W : Nat) (c : List Nat) : Prop :=
  c.length ≠ W ∧ W / 2 < c.length ∧ 0 < c.countP (· == 32)

/-- Relation between a source segment and the corresponding output
segment of justify_text: the LF run is untouched; a stretched line
keeps no LF, reaches length exactly W via the quotient/remainder space
split, and gains exactly delta spaces; any other line is unchanged. -/
def SegRel (W : Nat) (s t : List Nat × Nat) : Prop :=
  t.2 = s.2 ∧
  (needsStretch W s.1 →
    10 ∉ t.1 ∧ t.1.length = W ∧
    t.1.length = s.1.length +
      ((W - s.1.length) / s.1.countP (· == 32)) * s.1.countP (· == 32) +
      (W - s.1.length) % s.1.countP (· == 32) ∧
    t.1.countP (· == 32) = s.1.countP (· == 32) + (W - s.1.length)) ∧
  (¬ needsStretch W s.1 → t = s)

theorem byteAt_seg_c (X c : List Nat) (k : Nat) (T : List Nat) {j : Nat}
    (h1 : X.length ≤ j) (h2 : j < X.length + c.length) :
    byteAt (X ++ (c ++ (List.replicate k 10 ++ T))) j
      = byteAt c (j - X.length) := by
  rw [byteAt_append_right X _ j h1, byteAt_append_left c _ _ (by omega)]

theorem byteAt_seg_lf (X c : List Nat) (k : Nat) (T : List Nat) {j : Nat}
    (h1 : X.length + c.length ≤ j) (h2 : j < X.length + c.length + k) :
    byteAt (X ++ (c ++ (List.replicate k 10 ++ T))) j = 10 := by
  rw [byteAt_append_right X _ j (by omega),
      byteAt_append_right c _ _ (by omega),
      byteAt_append_left (List.replicate k 10) _ _
        (by rw [List.length_replicate]; omega),
      byteAt_replicate_lt k 10 _ (by omega)]

theorem byteAt_seg_T (X c : List Nat) (k : Nat) (T : List Nat) {j : Nat}
    (h1 : X.length + c.length + k ≤ j) :
    byteAt (X ++ (c ++ (List.replicate k 10 ++ T))) j
      = byteAt T (j - (X.length + c.length + k)) := by
  rw [byteAt_append_right X _ j (by omega),
      byteAt_append_right c _ _ (by omega),
      byteAt_append_right (List.replicate k 10) _ _
        (by rw [List.length_replicate]; omega)]
  congr 1
  rw [List.length_replicate]
  omega

theorem seg_length (X c : List Nat) (k : Nat) (T : List Nat) :
    (X ++ (c ++ (List.replicate k 10 ++ T))).length
      = X.length + c.length + k + T.length := by
  simp only [List.length_append, List.length_replicate]
  omega

theorem lineEndBase_seg (X c : List Nat) (k : Nat) (T : List Nat)
    (h10 : 10 ∉ c) (hk : k = 0 → T = []) :
    ((findFrom (X ++ (c ++ (List.replicate k 10 ++ T))) 10 X.length).getD
        (X ++ (c ++ (List.replicate k 10 ++ T))).length)
      = X.length + c.length := by
  cases k with
  | zero =>
    have hT := hk rfl
    subst hT
    have hnone :
        findFrom (X ++ (c ++ (List.replicate 0 10 ++ ([] : List Nat))))
          10 X.length = none := by
      refine findFrom_eq_none fun j hj1 hj2 => ?_
      rw [seg_length] at hj2
      simp only [List.length_nil] at hj2
      rw [byteAt_seg_c X c 0 [] hj1 (by omega)]
      have hb := byteAt_mem (l := c) (i := j - X.length) (by omega)
      intro hcon
      rw [hcon] at hb
      exact h10 hb
    rw [hnone, Option.getD_none, seg_length]
    simp only [List.length_nil]
    omega
  | succ n =>
    have hsome : findFrom (X ++ (c ++ (List.replicate (n+1) 10 ++ T)))
        10 X.length = some (X.length + c.length) := by
      apply findFrom_eq_first_from
      · exact byteAt_seg_lf X c (n+1) T (by omega) (by omega)
      · rw [seg_length]
        omega
      · omega
      · intro j hj1 hj2
        rw [byteAt_seg_c X c (n+1) T hj1 (by omega)]
        have hb := byteAt_mem (l := c) (i := j - X.length) (by omega)
        intro hcon
        rw [hcon] at hb
        exact h10 hb
    rw [hsome, Option.getD_some]

theorem lineEnd_seg (X c : List Nat) (k : Nat) (T : List Nat)
    (hT : byteAt T 0 ≠ 10) :
    skipLF (X ++ (c ++ (List.replicate k 10 ++ T))) (X.length + c.length)
      = X.length + c.length + k := by
  unfold skipLF
  apply skipRun_exact_at (by omega)
  · intro j hj1 hj2
    exact byteAt_seg_lf X c k T hj1 hj2
  · rw [byteAt_seg_T X c k T (by omega)]
    simp only [Nat.sub_self]
    exact hT

theorem window_seg (X c : List Nat) (k : Nat) (T : List Nat) :
    ((X ++ (c ++ (List.replicate k 10 ++ T))).drop X.length).take
        (c.length + k)
      = c ++ List.replicate k 10 := by
  rw [List.drop_left]
  rw [show c ++ (List.replicate k 10 ++ T)
      = (c ++ List.replicate k 10) ++ T from by simp [List.append_assoc]]
  rw [List.take_append_of_le_length (by simp),
      List.take_of_length_le (by simp)]

theorem take_seg (X c : List Nat) (k : Nat) (T : List Nat) :
    (X ++ (c ++ (List.replicate k 10 ++ T))).take X.length = X :=
  List.take_left X _

theorem drop_seg (X c : List Nat) (k : Nat) (T : List Nat) :
    (X ++ (c ++ (List.replicate k 10 ++ T))).drop
      (X.length + c.length + k) = T := by
  rw [show X ++ (c ++ (List.replicate k 10 ++ T))
      = (X ++ c ++ List.replicate k 10) ++ T from by simp [List.append_assoc]]
  rw [show X.length + c.length + k
      = (X ++ c ++ List.replicate k 10).length from by
        simp only [List.length_append, List.length_replicate]]
  rw [List.drop_left]

theorem noDoubleSpaceB_line {c : List Nat} (hnf : LineNF c) (k : Nat) :
    noDoubleSpaceB (c ++ List.replicate k 10) = true := by
  obtain ⟨hne, h10, h0, hlast, hnd⟩ := hnf
  unfold noDoubleSpaceB
  rw [decide_eq_true_eq]
  intro i hi hcon
  obtain ⟨h1, h2⟩ := hcon
  rcases Nat.lt_or_ge i c.length with hic | hic
  · rw [byteAt_append_left c _ i hic] at h1
    rcases Nat.lt_or_ge (i + 1) c.length with hic2 | hic2
    · rw [byteAt_append_left c _ _ hic2] at h2
      exact hnd i hic ⟨h1, h2⟩
    · have hieq : i = c.length - 1 := by omega
      rw [hieq] at h1
      exact hlast h1
  · rw [byteAt_append_right c _ i hic] at h1
    rcases Nat.lt_or_ge (i - c.length) k with hik | hik
    · rw [byteAt_replicate_lt k 10 _ hik] at h1
      omega
    · rw [byteAt_of_ge _ _ (by rw [List.length_replicate]; omega)] at h1
      omega

theorem linesJoined_head_ne_lf {W : Nat} {segs : List (List Nat × Nat)}
    (h : SegsWf W segs) : byteAt (linesJoined segs) 0 ≠ 10 := by
  cases segs with
  | nil => decide
  | cons s rest =>
    obtain ⟨c, k⟩ := s
    obtain ⟨hnf, -, -, -⟩ := h
    obtain ⟨hne, h10, -, -, -⟩ := hnf
    show byteAt (c ++ (List.replicate k 10 ++ linesJoined rest)) 0 ≠ 10
    have hc0 : 0 < c.length := by
      cases c with
      | nil => exact absurd rfl hne
      | cons a t => simp
    rw [byteAt_append_left c _ 0 hc0]
    intro hcon
    have hb := byteAt_mem hc0
    rw [hcon] at hb
    exact h10 hb

theorem segs_length_le {W : Nat} :
    ∀ {segs}, SegsWf W segs → segs.length ≤ (linesJoined segs).length := by
  intro segs
  induction segs with
  | nil => intro _; simp [linesJoined]
  | cons s rest ih =>
    intro h
    obtain ⟨c, k⟩ := s
    obtain ⟨hnf, -, -, hrest⟩ := h
    have h1 := ih hrest
    have hc0 : 0 < c.length := by
      obtain ⟨hne, -⟩ := hnf
      cases c with
      | nil => exact absurd rfl hne
      | cons a t => simp
    show rest.length + 1 ≤
      (c ++ (List.replicate k 10 ++ linesJoined rest)).length
    simp only [List.length_append, List.length_replicate]
    omega

/-- The line loop of justify_text over a segmented buffer: every
segment is either left alone or stretched to width W, and processing
continues after it. -/
theorem justifyGo_segs (W : Nat) :
    ∀ segs fuel (X : List Nat), SegsWf W segs → segs.length < fuel →
      ∃ segs2, justifyGo W fuel (X ++ linesJoined segs) X.length
          = some (X ++ linesJoined segs2) ∧
        List.Forall₂ (SegRel W) segs segs2 := by
  intro segs
  induction segs with
  | nil =>
    intro fuel X _ hfuel
    obtain ⟨f, rfl⟩ : ∃ f, fuel = f + 1 := ⟨fuel - 1, by omega⟩
    refine ⟨[], ?_, List.Forall₂.nil⟩
    unfold justifyGo
    rw [if_neg (by simp [linesJoined])]
  | cons s rest ih =>
    intro fuel X hwf hfuel
    obtain ⟨c, k⟩ := s
    obtain ⟨hnf, hcW, hkrest, hwfrest⟩ := hwf
    obtain ⟨f, rfl⟩ : ∃ f, fuel = f + 1 := ⟨fuel - 1, by omega⟩
    have hfuel2 : rest.length < f := by
      simp only [List.length_cons] at hfuel
      omega
    have hc0 : 0 < c.length := by
      obtain ⟨hne, -, -, -, -⟩ := hnf
      cases c with
      | nil => exact absurd rfl hne
      | cons a t => simp
    have h10c : 10 ∉ c := hnf.2.1
    have hT0 : byteAt (linesJoined rest) 0 ≠ 10 :=
      linesJoined_head_ne_lf hwfrest
    have hkT : k = 0 → linesJoined rest = [] := by
      intro hk0
      rcases hkrest with hr | hk1
      · rw [hr]
        rfl
      · omega
    simp only [linesJoined]
    unfold justifyGo
    rw [if_pos (by rw [seg_length]; omega)]
    dsimp only
    rw [lineEndBase_seg X c k (linesJoined rest) h10c hkT,
        Nat.add_sub_cancel_left,
        lineEnd_seg X c k (linesJoined rest) hT0,
        show X.length + c.length + k - X.length = c.length + k from by omega,
        window_seg X c k (linesJoined rest)]
    by_cases hskipc : c.length = W ∨ c.length ≤ W / 2
    · rw [if_pos hskipc]
      obtain ⟨rest2, hrec, hrel⟩ :=
        ih f (X ++ (c ++ List.replicate k 10)) hwfrest hfuel2
      refine ⟨(c, k) :: rest2, ?_, List.Forall₂.cons ⟨rfl, ?_, fun _ => rfl⟩ hrel⟩
      · rw [show X ++ (c ++ (List.replicate k 10 ++ linesJoined rest))
            = (X ++ (c ++ List.replicate k 10)) ++ linesJoined rest from by
              simp [List.append_assoc],
            show X.length + c.length + k
            = (X ++ (c ++ List.replicate k 10)).length from by
              simp only [List.length_append, List.length_replicate]
              omega,
            hrec]
        simp [linesJoined, List.append_assoc]
      · intro hns
        have hn1 : c.length ≠ W := hns.1
        have hn2 : W / 2 < c.length := hns.2.1
        rcases hskipc with h | h
        · exact absurd h hn1
        · omega
    · rw [if_neg hskipc]
      by_cases hholes0 : (c ++ List.replicate k 10).countP (· == 32) = 0
      · rw [if_pos hholes0]
        obtain ⟨rest2, hrec, hrel⟩ :=
          ih f (X ++ (c ++ List.replicate k 10)) hwfrest hfuel2
        refine ⟨(c, k) :: rest2, ?_,
          List.Forall₂.cons ⟨rfl, ?_, fun _ => rfl⟩ hrel⟩
        · rw [show X ++ (c ++ (List.replicate k 10 ++ linesJoined rest))
              = (X ++ (c ++ List.replicate k 10)) ++ linesJoined rest from by
                simp [List.append_assoc],
              show X.length + c.length + k
              = (X ++ (c ++ List.replicate k 10)).length from by
                simp only [List.length_append, List.length_replicate]
                omega,
              hrec]
          simp [linesJoined, List.append_assoc]
        · intro hns
          have hcnt := countP_line c k
          have h32 : 0 < c.countP (· == 32) := hns.2.2
          omega
      · rw [if_neg hholes0]
        rw [if_neg (by omega)]
        rw [if_pos (noDoubleSpaceB_line hnf k)]
        have hsp : 0 < c.countP (· == 32) := by
          have := countP_line c k
          omega
        obtain ⟨w2, hrun, hw2len, c2, hc2eq, hc2not, hc2len, hc2cnt⟩ :=
          justify_line_core W c k hnf hsp
        rw [hrun]
        dsimp only
        rw [take_seg X c k (linesJoined rest),
            drop_seg X c k (linesJoined rest)]
        obtain ⟨rest2, hrec, hrel⟩ :=
          ih f (X ++ (c2 ++ List.replicate k 10)) hwfrest hfuel2
        have hns : needsStretch W c := by
          push_neg at hskipc
          exact ⟨hskipc.1, by omega, hsp⟩
        refine ⟨(c2, k) :: rest2, ?_,
          List.Forall₂.cons ⟨rfl, fun _ => ⟨hc2not,
            by show c2.length = W; omega, ?_, hc2cnt⟩,
            fun hcon => absurd hns hcon⟩ hrel⟩
        · rw [show X ++ w2 ++ linesJoined rest
              = (X ++ (c2 ++ List.replicate k 10)) ++ linesJoined rest from by
                rw [hc2eq],
              show X.length + c.length + k + (W - c.length)
              = (X ++ (c2 ++ List.replicate k 10)).length from by
                simp only [List.length_append, List.length_replicate]
                omega,
              hrec]
          simp [linesJoined, List.append_assoc]
        · show c2.length = c.length +
            (W - c.length) / c.countP (· == 32) * c.countP (· == 32) +
            (W - c.length) % c.countP (· == 32)
          have hdm := Nat.div_add_mod (W - c.length) (c.countP (· == 32))
          rw [Nat.mul_comm] at hdm
          omega

/-- C1: after justify_text runs with target width W, every line it
transforms — a line whose length differs from W, exceeds the W/2
floor, and has at least one interior space — comes out with length
exactly W: the spaces added amount to delta = W - charCount, split as
(delta / holes) * holes from the full sweeps plus delta % holes
remainder insertions, where holes is the line's interior gap count;
every other line and every LF run is unchanged.  The buffer is given
as segments (line content, LF-run length), each content a normal-form
line of length at most W as the normalisation pass produces. -/
theorem justify_width_exact (W : Nat) (segs : List (List Nat × Nat))
    (hwf : SegsWf W segs) :
    ∃ segs2, justify_text W (linesJoined segs) = some (linesJoined segs2) ∧
      List.Forall₂ (SegRel W) segs segs2 := by
  obtain ⟨segs2, hgo, hrel⟩ := justifyGo_segs W segs
    ((linesJoined segs).length + 1) [] hwf
    (by have := segs_length_le hwf; omega)
  simp only [List.nil_append, List.length_nil] at hgo
  exact ⟨segs2, hgo, hrel⟩

/-- Witness for justify_width_exact: the spec scenario
"The quick brown fox\n" (19 characters, 3 gaps) justified to width
24. -/
theorem justify_width_exact_witness :
    SegsWf 24 [([84, 104, 101, 32, 113, 117, 105, 99, 107, 32, 98, 114,
      111, 119, 110, 32, 102, 111, 120], 1)] ∧
    ∃ segs2, justify_text 24 (linesJoined [([84, 104, 101, 32, 113, 117,
        105, 99, 107, 32, 98, 114, 111, 119, 110, 32, 102, 111, 120], 1)])
        = some (linesJoined segs2) ∧
      List.Forall₂ (SegRel 24) [([84, 104, 101, 32, 113, 117, 105, 99,
        107, 32, 98, 114, 111, 119, 110, 32, 102, 111, 120], 1)] segs2 :=
  ⟨by decide, justify_width_exact 24 _ (by decide)⟩

theorem lfRunLens_skip_nonlf (c Z : List Nat) (h10 : 10 ∉ c) :
    lfRunLens (c ++ Z) = lfRunLens Z := by
  induction c with
  | nil => rfl
  | cons a t ih =>
    have ha : a ≠ 10 := fun hc => h10 (by rw [hc]; simp)
    have ih2 := ih (fun hm => h10 (by simp [hm]))
    show lfRunLens (a :: (t ++ Z)) = lfRunLens Z
    conv_lhs => unfold lfRunLens
    rw [if_neg ha]
    exact ih2

theorem lfRunLens_rep (T : List Nat) (hT : byteAt T 0 ≠ 10) :
    ∀ k, 1 ≤ k → lfRunLens (List.replicate k 10 ++ T) = k :: lfRunLens T := by
  intro k
  induction k with
  | zero => intro h; exact absurd h (by omega)
  | succ k ih =>
    intro _
    cases k with
    | zero =>
      show lfRunLens (10 :: T) = 1 :: lfRunLens T
      conv_lhs => unfold lfRunLens
      rw [if_pos rfl]
      cases T with
      | nil => rfl
      | cons a tl =>
        split
        · next heq =>
            rw [heq] at hT
            exact absurd rfl hT
        · rfl
    | succ k2 =>
      have ih2 := ih (by omega)
      show lfRunLens (10 :: (List.replicate (k2 + 1) 10 ++ T))
        = (k2 + 1 + 1) :: lfRunLens T
      conv_lhs => unfold lfRunLens
      rw [if_pos rfl]
      split
      · next heq =>
          rw [ih2]
      · next hne =>
          exact absurd (show List.replicate (k2 + 1) 10 ++ T
            = 10 :: (List.replicate k2 10 ++ T) from rfl) (hne _)

/-- Well-formed segments for the aligners: nonempty LF-free contents
of length at most W, LF runs nonempty except possibly the last. -/
def AlignSegsWf (W : Nat) : List (List Nat × Nat) → Prop
  | [] => True
  | (c, k) :: rest =>
    c ≠ [] ∧ 10 ∉ c ∧ c.length ≤ W ∧ (rest = [] ∨ 1 ≤ k) ∧
      AlignSegsWf W rest

instance instDecidableAlignSegsWf (W : Nat) :
    ∀ segs, Decidable (AlignSegsWf W segs)
  | [] => isTrue trivial
  | (c, k) :: rest =>
    haveI := instDecidableAlignSegsWf W rest
    show Decidable (c ≠ [] ∧ 10 ∉ c ∧ c.length ≤ W ∧ (rest = [] ∨ 1 ≤ k) ∧
      AlignSegsWf W rest) from inferInstance

theorem linesJoined_head_ne_lf_of {segs : List (List Nat × Nat)}
    (h : ∀ s ∈ segs, s.1 ≠ [] ∧ 10 ∉ s.1) :
    byteAt (linesJoined segs) 0 ≠ 10 := by
  cases segs with
  | nil => decide
  | cons s rest =>
    obtain ⟨c, k⟩ := s
    obtain ⟨hne, h10⟩ := h (c, k) (by simp)
    show byteAt (c ++ (List.replicate k 10 ++ linesJoined rest)) 0 ≠ 10
    have hc0 : 0 < c.length := by
      cases c with
      | nil => exact absurd rfl hne
      | cons a t => simp
    rw [byteAt_append_left c _ 0 hc0]
    intro hcon
    have hb := byteAt_mem hc0
    rw [hcon] at hb
    exact h10 hb

theorem lfRunLens_linesJoined :
    ∀ segs : List (List Nat × Nat), (∀ s ∈ segs, s.1 ≠ [] ∧ 10 ∉ s.1) →
      lfRunLens (linesJoined segs)
        = (segs.map Prod.snd).filter (fun k => decide (1 ≤ k)) := by
  intro segs
  induction segs with
  | nil => intro _; rfl
  | cons s rest ih =>
    intro h
    obtain ⟨c, k⟩ := s
    obtain ⟨hne, h10⟩ := h (c, k) (by simp)
    have hrest : ∀ s ∈ rest, s.1 ≠ [] ∧ 10 ∉ s.1 :=
      fun s hs => h s (by simp [hs])
    have ih2 := ih hrest
    show lfRunLens (c ++ (List.replicate k 10 ++ linesJoined rest)) = _
    rw [lfRunLens_skip_nonlf c _ h10]
    cases k with
    | zero =>
      rw [show List.replicate 0 10 ++ linesJoined rest
          = linesJoined rest from rfl, ih2]
      simp
    | succ n =>
      have hhead : byteAt (linesJoined rest) 0 ≠ 10 :=
        linesJoined_head_ne_lf_of hrest
      rw [lfRunLens_rep _ hhead (n + 1) (by omega), ih2]
      simp

theorem forall2_map_snd {R : List Nat × Nat → List Nat × Nat → Prop}
    (hR : ∀ s t, R s t → t.2 = s.2) :
    ∀ {segs segs2 : List (List Nat × Nat)}, List.Forall₂ R segs segs2 →
      segs2.map Prod.snd = segs.map Prod.snd := by
  intro segs segs2 h
  induction h with
  | nil => rfl
  | cons hst _ ih =>
    simp only [List.map_cons, ih, List.cons.injEq]
    exact ⟨hR _ _ hst, trivial⟩

theorem alignSegsWf_mem {W : Nat} :
    ∀ {segs}, AlignSegsWf W segs → ∀ s ∈ segs, s.1 ≠ [] ∧ 10 ∉ s.1 := by
  intro segs
  induction segs with
  | nil => intro _ s hs; exact absurd hs (by simp)
  | cons a rest ih =>
    intro h s hs
    obtain ⟨c, k⟩ := a
    obtain ⟨hne, h10, -, -, hrest⟩ := h
    rcases List.mem_cons.mp hs with rfl | hs2
    · exact ⟨hne, h10⟩
    · exact ih hrest s hs2

theorem segsWf_mem {W : Nat} :
    ∀ {segs}, SegsWf W segs → ∀ s ∈ segs, LineNF s.1 ∧ s.1.length ≤ W := by
  intro segs
  induction segs with
  | nil => intro _ s hs; exact absurd hs (by simp)
  | cons a rest ih =>
    intro h s hs
    obtain ⟨c, k⟩ := a
    obtain ⟨hnf, hle, -, hrest⟩ := h
    rcases List.mem_cons.mp hs with rfl | hs2
    · exact ⟨hnf, hle⟩
    · exact ih hrest s hs2

theorem segsWf_align {W : Nat} :
    ∀ {segs}, SegsWf W segs → AlignSegsWf W segs := by
  intro segs
  induction segs with
  | nil => intro _; trivial
  | cons a rest ih =>
    intro h
    obtain ⟨c, k⟩ := a
    obtain ⟨hnf, hle, hk, hrest⟩ := h
    exact ⟨hnf.1, hnf.2.1, hle, hk, ih hrest⟩

theorem drop_seg_base (X c : List Nat) (k : Nat) (T : List Nat) :
    (X ++ (c ++ (List.replicate k 10 ++ T))).drop (X.length + c.length)
      = List.replicate k 10 ++ T := by
  rw [show X ++ (c ++ (List.replicate k 10 ++ T))
      = (X ++ c) ++ (List.replicate k 10 ++ T) from by
        simp [List.append_assoc],
      show X.length + c.length = (X ++ c).length from by simp,
      List.drop_left]

/-- The line loop of right_align_text over a segmented buffer: every
line gains delta = W - charCount leading spaces; LF runs untouched. -/
theorem rightAlignGo_segs (W : Nat) :
    ∀ segs fuel (X : List Nat), AlignSegsWf W segs → segs.length < fuel →
      ∃ segs2, rightAlignGo W fuel (X ++ linesJoined segs) X.length
          = some (X ++ linesJoined segs2) ∧
        List.Forall₂ (fun s t => t.2 = s.2 ∧
          t.1 = List.replicate (W - s.1.length) 32 ++ s.1) segs segs2 := by
  intro segs
  induction segs with
  | nil =>
    intro fuel X _ hfuel
    obtain ⟨f, rfl⟩ : ∃ f, fuel = f + 1 := ⟨fuel - 1, by omega⟩
    refine ⟨[], ?_, List.Forall₂.nil⟩
    unfold rightAlignGo
    rw [if_neg (by simp [linesJoined])]
  | cons s rest ih =>
    intro fuel X hwf hfuel
    obtain ⟨c, k⟩ := s
    obtain ⟨hne, h10c, hcW, hkrest, hwfrest⟩ := hwf
    obtain ⟨f, rfl⟩ : ∃ f, fuel = f + 1 := ⟨fuel - 1, by omega⟩
    have hfuel2 : rest.length < f := by
      simp only [List.length_cons] at hfuel
      omega
    have hc0 : 0 < c.length := by
      cases c with
      | nil => exact absurd rfl hne
      | cons a t => simp
    have hT0 : byteAt (linesJoined rest) 0 ≠ 10 :=
      linesJoined_head_ne_lf_of (alignSegsWf_mem hwfrest)
    have hkT : k = 0 → linesJoined rest = [] := by
      intro hk0
      rcases hkrest with hr | hk1
      · rw [hr]
        rfl
      · omega
    simp only [linesJoined]
    unfold rightAlignGo
    rw [if_pos (by rw [seg_length]; omega)]
    dsimp only
    rw [lineEndBase_seg X c k (linesJoined rest) h10c hkT,
        Nat.add_sub_cancel_left]
    rw [if_neg (by omega)]
    rw [take_seg X c k (linesJoined rest), List.drop_left]
    rw [show X ++ List.replicate (W - c.length) 32 ++
          (c ++ (List.replicate k 10 ++ linesJoined rest))
        = X ++ ((List.replicate (W - c.length) 32 ++ c) ++
          (List.replicate k 10 ++ linesJoined rest)) from by
        simp [List.append_assoc]]
    rw [show X.length + c.length + (W - c.length)
        = X.length + (List.replicate (W - c.length) 32 ++ c).length from by
        simp only [List.length_append, List.length_replicate]
        omega]
    rw [lineEnd_seg X (List.replicate (W - c.length) 32 ++ c) k
        (linesJoined rest) hT0]
    obtain ⟨rest2, hrec, hrel⟩ := ih f
      (X ++ (List.replicate (W - c.length) 32 ++ c ++ List.replicate k 10))
      hwfrest hfuel2
    refine ⟨(List.replicate (W - c.length) 32 ++ c, k) :: rest2, ?_,
      List.Forall₂.cons ⟨rfl, rfl⟩ hrel⟩
    rw [show X ++ ((List.replicate (W - c.length) 32 ++ c) ++
          (List.replicate k 10 ++ linesJoined rest))
        = (X ++ (List.replicate (W - c.length) 32 ++ c ++
          List.replicate k 10)) ++ linesJoined rest from by
        simp [List.append_assoc]]
    convert hrec using 2
    · simp only [List.length_append, List.length_replicate]
      omega
    · simp [linesJoined, List.append_assoc]

/-- The line loop of centre_align_text over a segmented buffer: every
line gains half1 = ceil(delta/2) leading and delta - half1 trailing
spaces; LF runs untouched. -/
theorem centreAlignGo_segs (W : Nat) :
    ∀ segs fuel (X : List Nat), AlignSegsWf W segs → segs.length < fuel →
      ∃ segs2, centreAlignGo W fuel (X ++ linesJoined segs) X.length
          = some (X ++ linesJoined segs2) ∧
        List.Forall₂ (fun s t => t.2 = s.2 ∧
          t.1 = List.replicate ((W - s.1.length) / 2 + (W - s.1.length) % 2)
              32 ++ s.1 ++
            List.replicate (W - s.1.length -
              ((W - s.1.length) / 2 + (W - s.1.length) % 2)) 32) segs segs2 := by
  intro segs
  induction segs with
  | nil =>
    intro fuel X _ hfuel
    obtain ⟨f, rfl⟩ : ∃ f, fuel = f + 1 := ⟨fuel - 1, by omega⟩
    refine ⟨[], ?_, List.Forall₂.nil⟩
    unfold centreAlignGo
    rw [if_neg (by simp [linesJoined])]
  | cons s rest ih =>
    intro fuel X hwf hfuel
    obtain ⟨c, k⟩ := s
    obtain ⟨hne, h10c, hcW, hkrest, hwfrest⟩ := hwf
    obtain ⟨f, rfl⟩ : ∃ f, fuel = f + 1 := ⟨fuel - 1, by omega⟩
    have hfuel2 : rest.length < f := by
      simp only [List.length_cons] at hfuel
      omega
    have hc0 : 0 < c.length := by
      cases c with
      | nil => exact absurd rfl hne
      | cons a t => simp
    have hT0 : byteAt (linesJoined rest) 0 ≠ 10 :=
      linesJoined_head_ne_lf_of (alignSegsWf_mem hwfrest)
    have hkT : k = 0 → linesJoined rest = [] := by
      intro hk0
      rcases hkrest with hr | hk1
      · rw [hr]
        rfl
      · omega
    simp only [linesJoined]
    unfold centreAlignGo
    rw [if_pos (by rw [seg_length]; omega)]
    dsimp only
    rw [lineEndBase_seg X c k (linesJoined rest) h10c hkT,
        Nat.add_sub_cancel_left]
    rw [if_neg (by omega)]
    rw [take_seg X c k (linesJoined rest), List.drop_left, List.take_left,
        drop_seg_base X c k (linesJoined rest)]
    rw [show X ++ List.replicate ((W - c.length) / 2 + (W - c.length) % 2)
            32 ++ c ++
          List.replicate (W - c.length -
            ((W - c.length) / 2 + (W - c.length) % 2)) 32 ++
          (List.replicate k 10 ++ linesJoined rest)
        = X ++ ((List.replicate ((W - c.length) / 2 + (W - c.length) % 2)
            32 ++ c ++
          List.replicate (W - c.length -
            ((W - c.length) / 2 + (W - c.length) % 2)) 32) ++
          (List.replicate k 10 ++ linesJoined rest)) from by
        simp [List.append_assoc]]
    rw [show X.length + c.length + (W - c.length)
        = X.length + (List.replicate ((W - c.length) / 2 +
            (W - c.length) % 2) 32 ++ c ++
          List.replicate (W - c.length -
            ((W - c.length) / 2 + (W - c.length) % 2)) 32).length from by
        simp only [List.length_append, List.length_replicate]
        omega]
    rw [lineEnd_seg X (List.replicate ((W - c.length) / 2 +
          (W - c.length) % 2) 32 ++ c ++
        List.replicate (W - c.length -
          ((W - c.length) / 2 + (W - c.length) % 2)) 32) k
        (linesJoined rest) hT0]
    obtain ⟨rest2, hrec, hrel⟩ := ih f
      (X ++ ((List.replicate ((W - c.length) / 2 + (W - c.length) % 2)
          32 ++ c ++
        List.replicate (W - c.length -
          ((W - c.length) / 2 + (W - c.length) % 2)) 32) ++
        List.replicate k 10))
      hwfrest hfuel2
    refine ⟨(List.replicate ((W - c.length) / 2 + (W - c.length) % 2)
        32 ++ c ++
      List.replicate (W - c.length -
        ((W - c.length) / 2 + (W - c.length) % 2)) 32, k) :: rest2, ?_,
      List.Forall₂.cons ⟨rfl, rfl⟩ hrel⟩
    convert hrec using 2
    · simp [List.append_assoc]
    · simp only [List.length_append, List.length_replicate]
      omega
    · simp [linesJoined, List.append_assoc]

theorem forall2_exists_left {R : List Nat × Nat → List Nat × Nat → Prop} :
    ∀ {segs segs2}, List.Forall₂ R segs segs2 →
      ∀ t ∈ segs2, ∃ s ∈ segs, R s t := by
  intro segs segs2 h
  induction h with
  | nil => intro t ht; exact absurd ht (by simp)
  | cons hst htail ih =>
    intro t ht
    rcases List.mem_cons.mp ht with rfl | ht2
    · exact ⟨_, by simp, hst⟩
    · obtain ⟨s, hs, hr⟩ := ih t ht2
      exact ⟨s, by simp [hs], hr⟩

/-- C2 (amended): justify_text, right_align_text and centre_align_text
each preserve the LF-run structure of the buffer exactly — every run
of consecutive LF bytes keeps its byte count, so the paragraph breaks
(runs of 2 or more LFs) are unchanged in number and size.  The
original claim fails for normalization (and reflow), which rewrite
line breaks. -/
theorem aligners_preserve_paragraph_breaks (W : Nat)
    (segs : List (List Nat × Nat)) (hwf : SegsWf W segs) :
    (∃ l2, justify_text W (linesJoined segs) = some l2 ∧
      lfRunLens l2 = lfRunLens (linesJoined segs) ∧
      paragraphBreaks l2 = paragraphBreaks (linesJoined segs)) ∧
    (∃ l2, right_align_text W (linesJoined segs) = some l2 ∧
      lfRunLens l2 = lfRunLens (linesJoined segs) ∧
      paragraphBreaks l2 = paragraphBreaks (linesJoined segs)) ∧
    (∃ l2, centre_align_text W (linesJoined segs) = some l2 ∧
      lfRunLens l2 = lfRunLens (linesJoined segs) ∧
      paragraphBreaks l2 = paragraphBreaks (linesJoined segs)) := by
  have hwfmem := segsWf_mem hwf
  have hmem1 : ∀ s ∈ segs, s.1 ≠ [] ∧ 10 ∉ s.1 :=
    fun s hs => ⟨(hwfmem s hs).1.1, (hwfmem s hs).1.2.1⟩
  have hfb := segs_length_le hwf
  refine ⟨?_, ?_, ?_⟩
  · obtain ⟨segs2, hj, hrel⟩ := justify_width_exact W segs hwf
    have hmem2 : ∀ t ∈ segs2, t.1 ≠ [] ∧ 10 ∉ t.1 := by
      intro t ht
      obtain ⟨s, hs, hr⟩ := forall2_exists_left hrel t ht
      obtain ⟨hnf, hle⟩ := hwfmem s hs
      by_cases hns : needsStretch W s.1
      · obtain ⟨h10t, hlen, -, -⟩ := hr.2.1 hns
        refine ⟨?_, h10t⟩
        have hW1 : 1 ≤ W := by
          have h2 := hns.2.1
          omega
        intro hnil
        rw [hnil] at hlen
        simp at hlen
        omega
      · have hts := hr.2.2 hns
        rw [hts]
        exact ⟨hnf.1, hnf.2.1⟩
    have heq : lfRunLens (linesJoined segs2) = lfRunLens (linesJoined segs) := by
      rw [lfRunLens_linesJoined segs2 hmem2, lfRunLens_linesJoined segs hmem1,
          forall2_map_snd (fun s t hr => hr.1) hrel]
    exact ⟨linesJoined segs2, hj, heq, by unfold paragraphBreaks; rw [heq]⟩
  · obtain ⟨segs2, hr, hrel⟩ := rightAlignGo_segs W segs
      ((linesJoined segs).length + 1) [] (segsWf_align hwf) (by omega)
    simp only [List.nil_append, List.length_nil] at hr
    have hmem2 : ∀ t ∈ segs2, t.1 ≠ [] ∧ 10 ∉ t.1 := by
      intro t ht
      obtain ⟨s, hs, hrl⟩ := forall2_exists_left hrel t ht
      obtain ⟨hne, h10⟩ := hmem1 s hs
      rw [hrl.2]
      constructor
      · simp [hne]
      · intro hm
        rcases List.mem_append.mp hm with hm1 | hm2
        · have := List.eq_of_mem_replicate hm1
          omega
        · exact h10 hm2
    have heq : lfRunLens (linesJoined segs2) = lfRunLens (linesJoined segs) := by
      rw [lfRunLens_linesJoined segs2 hmem2, lfRunLens_linesJoined segs hmem1,
          forall2_map_snd (fun s t hr => hr.1) hrel]
    exact ⟨linesJoined segs2, hr, heq, by unfold paragraphBreaks; rw [heq]⟩
  · obtain ⟨segs2, hc, hrel⟩ := centreAlignGo_segs W segs
      ((linesJoined segs).length + 1) [] (segsWf_align hwf) (by omega)
    simp only [List.nil_append, List.length_nil] at hc
    have hmem2 : ∀ t ∈ segs2, t.1 ≠ [] ∧ 10 ∉ t.1 := by
      intro t ht
      obtain ⟨s, hs, hrl⟩ := forall2_exists_left hrel t ht
      obtain ⟨hne, h10⟩ := hmem1 s hs
      rw [hrl.2]
      constructor
      · simp [hne]
      · intro hm
        rcases List.mem_append.mp hm with hm1 | hm2
        · rcases List.mem_append.mp hm1 with hm3 | hm4
          · have := List.eq_of_mem_replicate hm3
            omega
          · exact h10 hm4
        · have := List.eq_of_mem_replicate hm2
          omega
    have heq : lfRunLens (linesJoined segs2) = lfRunLens (linesJoined segs) := by
      rw [lfRunLens_linesJoined segs2 hmem2, lfRunLens_linesJoined segs hmem1,
          forall2_map_snd (fun s t hr => hr.1) hrel]
    exact ⟨linesJoined segs2, hc, heq, by unfold paragraphBreaks; rw [heq]⟩

/-- C2 counterexample: normalization does not preserve paragraph
breaks — the hyphen-LF rejoin on "b-\n\nc" consumes one LF of the
2-LF paragraph break, leaving none. -/
theorem normalise_destroys_paragraph_break :
    normalise_file [98, 45, 10, 10, 99] = [98, 10, 99] ∧
    paragraphBreaks [98, 45, 10, 10, 99] = [2] ∧
    paragraphBreaks [98, 10, 99] = [] := by decide

/-- Witness for aligners_preserve_paragraph_breaks: the line "hi"
with one LF at width 6. -/
theorem aligners_preserve_paragraph_breaks_witness :
    SegsWf 6 [([104, 105], 1)] ∧
    ((∃ l2, justify_text 6 (linesJoined [([104, 105], 1)]) = some l2 ∧
      lfRunLens l2 = lfRunLens (linesJoined [([104, 105], 1)]) ∧
      paragraphBreaks l2 = paragraphBreaks (linesJoined [([104, 105], 1)])) ∧
    (∃ l2, right_align_text 6 (linesJoined [([104, 105], 1)]) = some l2 ∧
      lfRunLens l2 = lfRunLens (linesJoined [([104, 105], 1)]) ∧
      paragraphBreaks l2 = paragraphBreaks (linesJoined [([104, 105], 1)])) ∧
    (∃ l2, centre_align_text 6 (linesJoined [([104, 105], 1)]) = some l2 ∧
      lfRunLens l2 = lfRunLens (linesJoined [([104, 105], 1)]) ∧
      paragraphBreaks l2 = paragraphBreaks (linesJoined [([104, 105], 1)]))) :=
  ⟨by decide, aligners_preserve_paragraph_breaks 6 [([104, 105], 1)] (by decide)⟩

/-- The backward scan of change_line_length's boundary probe:
`while (*line_end != 0x20 && *line_end != 0x0a && line_end > line_start+1) --line_end`.
Arguments: buffer, line_start, current line_end. -/
def cllBack (l : List Nat) (ls : Nat) : Nat → Nat
  | 0 => 0
  | le+1 =>
    if byteAt l (le+1) ≠ 32 ∧ byteAt l (le+1) ≠ 10 ∧ ls + 1 < le + 1 then
      cllBack l ls le
    else le + 1

/-- The inner scan loop of change_line_length over [p, lineEnd):
a lone LF is overwritten with a space, a 2+ LF run triggers the
paragraph restart (`goto __begin_next_line`, reported as the true
flag, with the cursor past the run), an LF just before endp breaks
out, and other bytes are stepped over.  Result: (buffer, cursor,
restarted). -/
def cllScan : Nat → List Nat → Nat → Nat → Option (List Nat × Nat × Bool)
  | 0, _, _, _ => none
  | fuel+1, l, p, lineEnd =>
    if p < lineEnd then
      if byteAt l p = 10 ∧ p + 1 = l.length then some (l, p, false)
      else if byteAt l p = 10 ∧ byteAt l (p+1) ≠ 10 then
        cllScan fuel (l.set p 32) (p+1) lineEnd
      else if byteAt l p = 10 ∧ byteAt l (p+1) = 10 then
        some (l, skipRun l 10 p, true)
      else cllScan fuel l (p+1) lineEnd
    else some (l, p, false)

/-- extend + __shift_file_data at offset `i` by `n` bytes: opens a
zero-filled gap of n bytes at i.  The C memmove count is
endp - i as size_t; i past endp underflows to a huge count —
undefined behaviour, modelled as none. -/
def cllInsert (l : List Nat) (i n : Nat) : Option (List Nat) :=
  if l.length < i then none
  else some (l.take i ++ List.replicate n 0 ++ l.drop i)

/-- The line loop of change_line_length (reflow to width W):
probe the boundary at line_start + W (clamped to endp), back-scan to
the nearest space/LF (floor line_start + 1, with the line_start
fallback re-probing), run the inner scan, then either turn a boundary
space into LF, step past a lone boundary LF, or force hyphenation:
point at line_start + W - 1, shift by 1 if a hyphen is adjacent
(reading one byte back — undefined behaviour at offset 0, modelled as
none) else by 2, and write "-\n" (or a lone LF) into the gap.
Fuel 0 is none. -/
def cllGo (W : Nat) : Nat → List Nat → Nat → Option (List Nat)
  | 0, _, _ => none
  | fuel+1, l, p =>
    if p < l.length then
      let le0 := if l.length < p + W then l.length else p + W
      let le1 := if byteAt l le0 ≠ 10 ∧ byteAt l le0 ≠ 32 then
        cllBack l p le0 else le0
      let le2 := if le1 = p then
        (if l.length < p + W then l.length else p + W) else le1
      match cllScan (l.length + 1) l p le2 with
      | none => none
      | some (l2, p2, true) => cllGo W fuel l2 p2
      | some (l2, p2, false) =>
        if p2 < l2.length then
          if byteAt l2 p2 = 32 then cllGo W fuel (l2.set p2 10) (p2+1)
          else if byteAt l2 p2 = 10 then cllGo W fuel l2 (p2+1)
          else if p + W = 0 then none
          else
            let ph := p + W - 1
            if byteAt l2 ph = 45 then
              match cllInsert l2 (ph+1) 1 with
              | none => none
              | some l4 => cllGo W fuel (l4.set (ph+1) 10) (ph+2)
            else if ph = 0 then none
            else if byteAt l2 (ph - 1) = 45 then
              match cllInsert l2 ph 1 with
              | none => none
              | some l4 => cllGo W fuel (l4.set ph 10) (ph+1)
            else
              match cllInsert l2 ph 2 with
              | none => none
              | some l4 => cllGo W fuel ((l4.set ph 45).set (ph+1) 10) (ph+2)
        else cllGo W fuel l2 p2
    else some l

/-- change_line_length with target width W. -/
def change_line_length (W : Nat) (l : List Nat) : Option (List Nat) :=
  cllGo W (l.length + 1) l 0

/-- The clean hyphenation trajectory on a single token: successive
chunks of W - 1 bytes each followed by "-\n", stopping on a remnant
of 0 or 1 bytes. -/
def hyphChunks (W : Nat) : Nat → List Nat → List Nat
  | 0, t => t
  | fuel+1, t =>
    if 2 ≤ t.length ∧ W - 1 ≤ t.length then
      t.take (W - 1) ++ 45 :: 10 :: hyphChunks W fuel (t.drop (W - 1))
    else t

def expectedHyph (W : Nat) (t : List Nat) : List Nat :=
  hyphChunks W (t.length + 1) t

section Scratch
-- reflow sanity: join lone LF, keep paragraph break, wrap at space
example : change_line_length 10 [104, 105, 10, 106, 107, 10] =
    some [104, 105, 32, 106, 107, 10] := by decide
example : change_line_length 10 [97, 10, 10, 98, 10] =
    some [97, 10, 10, 98, 10] := by decide
example : change_line_length 5 [104, 101, 108, 108, 111, 32, 119,
    111, 114, 108, 100, 10] =
    some [104, 101, 108, 108, 111, 10, 119, 111, 114, 108, 100, 10] := by
  decide
-- single token "abcdefg", width 5: 7 % 4 = 3, the C shifts with an
-- underflowing memmove count
example : change_line_length 5 [97, 98, 99, 100, 101, 102, 103] = none := by
  decide
-- single token "abcdefgh", width 5: 8 % 4 = 0, clean chunks
example : change_line_length 5 [97, 98, 99, 100, 101, 102, 103, 104] =
    some [97, 98, 99, 100, 45, 10, 101, 102, 103, 104, 45, 10] := by decide
-- single token "abcdefghi", width 5: 9 % 4 = 1, clean chunks + remnant
example : change_line_length 5 [97, 98, 99, 100, 101, 102, 103, 104, 105] =
    some [97, 98, 99, 100, 45, 10, 101, 102, 103, 104, 45, 10, 105] := by
  decide
example : expectedHyph 5 [97, 98, 99, 100, 101, 102, 103, 104] =
    [97, 98, 99, 100, 45, 10, 101, 102, 103, 104, 45, 10] := by decide
end Scratch

theorem cllBack_eq (l : List Nat) (ls : Nat) :
    ∀ le, ls + 1 ≤ le →
      (∀ j, ls + 1 < j → j ≤ le → byteAt l j ≠ 32 ∧ byteAt l j ≠ 10) →
      cllBack l ls le = ls + 1 := by
  intro le
  induction le with
  | zero => intro h _; exact absurd h (by omega)
  | succ le ih =>
    intro h hbytes
    show cllBack l ls (le + 1) = ls + 1
    unfold cllBack
    rcases Nat.eq_or_lt_of_le h with heq | hlt
    · rw [if_neg (fun hc => absurd hc.2.2 (by omega))]
      omega
    · obtain ⟨hb1, hb2⟩ := hbytes (le + 1) hlt le_rfl
      rw [if_pos ⟨hb1, hb2, hlt⟩]
      exact ih (by omega) (fun j h1 h2 => hbytes j h1 (by omega))

theorem hyphChunks_fuel (W : Nat) (hW : 2 ≤ W) :
    ∀ f t, t.length < f → hyphChunks W f t = hyphChunks W (t.length + 1) t := by
  intro f
  induction f using Nat.strong_induction_on with
  | _ f ihf =>
    intro t hf
    obtain ⟨f2, rfl⟩ : ∃ f2, f = f2 + 1 := ⟨f - 1, by omega⟩
    by_cases hcond : 2 ≤ t.length ∧ W - 1 ≤ t.length
    · have hdl : (t.drop (W - 1)).length = t.length - (W - 1) := by simp
      have h1 : hyphChunks W (f2 + 1) t
          = t.take (W - 1) ++ 45 :: 10 :: hyphChunks W f2 (t.drop (W - 1)) := by
        conv_lhs => unfold hyphChunks
        rw [if_pos hcond]
      have h2 : hyphChunks W (t.length + 1) t
          = t.take (W - 1) ++ 45 :: 10 ::
              hyphChunks W t.length (t.drop (W - 1)) := by
        conv_lhs => unfold hyphChunks
        rw [if_pos hcond]
      have e1 := ihf f2 (by omega) (t.drop (W - 1)) (by rw [hdl]; omega)
      have e2 := ihf t.length (by omega) (t.drop (W - 1)) (by rw [hdl]; omega)
      rw [h1, h2, e1, e2]
    · have h1 : hyphChunks W (f2 + 1) t = t := by
        conv_lhs => unfold hyphChunks
        rw [if_neg hcond]
      have h2 : hyphChunks W (t.length + 1) t = t := by
        conv_lhs => unfold hyphChunks
        rw [if_neg hcond]
      rw [h1, h2]

theorem token_byteAt {X t : List Nat}
    (ht : ∀ b ∈ t, b ≠ 10 ∧ b ≠ 32 ∧ b ≠ 45)
    {j : Nat} (h1 : X.length ≤ j) (h2 : j < X.length + t.length) :
    byteAt (X ++ t) j ≠ 10 ∧ byteAt (X ++ t) j ≠ 32 ∧
      byteAt (X ++ t) j ≠ 45 := by
  rw [byteAt_append_right X t j h1]
  have hb := byteAt_mem (l := t) (i := j - X.length) (by omega)
  exact ht _ hb

theorem set_pair_shape (A D : List Nat) (i : Nat) (hi : i = A.length) :
    ((A ++ List.replicate 2 0 ++ D).set i 45).set (i + 1) 10
      = A ++ 45 :: 10 :: D := by
  subst hi
  have h1 : (A ++ List.replicate 2 0 ++ D).set A.length 45
      = (A ++ [45, 0]) ++ D := by
    rw [List.set_append, if_pos (by simp)]
    rw [List.set_append, if_neg (by omega)]
    simp only [Nat.sub_self]
    rfl
  rw [h1]
  rw [List.set_append, if_pos (by simp)]
  rw [List.set_append, if_neg (by omega)]
  rw [show A.length + 1 - A.length = 1 from by omega]
  simp

/-- One token-scan of cllScan over the 1-byte window [p, p+1). -/
theorem cllScan_token {X t : List Nat}
    (ht : ∀ b ∈ t, b ≠ 10 ∧ b ≠ 32 ∧ b ≠ 45) (hr : 1 ≤ t.length) :
    cllScan ((X ++ t).length + 1) (X ++ t) X.length (X.length + 1)
      = some (X ++ t, X.length + 1, false) := by
  have hlen : (X ++ t).length = X.length + t.length := by simp
  have ht0 := token_byteAt ht (le_refl X.length) (by omega)
  obtain ⟨g, hg⟩ : ∃ g, (X ++ t).length + 1 = g + 2 :=
    ⟨(X ++ t).length - 1, by omega⟩
  rw [hg]
  show cllScan (g + 2) (X ++ t) X.length (X.length + 1) = _
  unfold cllScan
  rw [if_pos (by omega)]
  rw [if_neg (fun hc => ht0.1 hc.1), if_neg (fun hc => ht0.1 hc.1),
      if_neg (fun hc => ht0.1 hc.1)]
  unfold cllScan
  rw [if_neg (by omega)]

/-- The reflow trajectory on a single clean token: as long as the
remnant length is 0 or 1 modulo W - 1, every iteration splits off a
chunk of W - 1 bytes followed by "-\n". -/
theorem cllGo_token (W : Nat) (hW : 2 ≤ W) :
    ∀ r fuel (X t : List Nat), t.length = r → r + 1 ≤ fuel →
      (∀ b ∈ t, b ≠ 10 ∧ b ≠ 32 ∧ b ≠ 45) →
      t.length % (W - 1) ≤ 1 →
      cllGo W fuel (X ++ t) X.length
        = some (X ++ hyphChunks W (t.length + 1) t) := by
  intro r
  induction r using Nat.strong_induction_on with
  | _ r ih =>
    intro fuel X t hr hfuel ht hmod
    have hlen : (X ++ t).length = X.length + t.length := by simp
    obtain ⟨f, rfl⟩ : ∃ f, fuel = f + 1 := ⟨fuel - 1, by omega⟩
    rcases Nat.eq_zero_or_pos r with rfl | hr1
    · obtain rfl : t = [] := List.length_eq_zero.mp hr
      unfold cllGo
      rw [if_neg (by simp)]
      rw [show hyphChunks W (List.length ([] : List Nat) + 1)
          ([] : List Nat) = [] from by
        conv_lhs => unfold hyphChunks
        rw [if_neg (by simp)]]
    · have hbE : byteAt (X ++ t)
            (if (X ++ t).length < X.length + W then (X ++ t).length
             else X.length + W) ≠ 10 ∧
          byteAt (X ++ t)
            (if (X ++ t).length < X.length + W then (X ++ t).length
             else X.length + W) ≠ 32 := by
        split_ifs with hin
        · rw [byteAt_of_ge _ _ le_rfl]
          exact ⟨by omega, by omega⟩
        · rcases Nat.lt_or_ge (X.length + W) (X ++ t).length with hlt | hge
          · rw [hlen] at hlt
            have hb := token_byteAt (X := X) ht (j := X.length + W) (by omega) (by omega)
            exact ⟨hb.1, hb.2.1⟩
          · rw [byteAt_of_ge _ _ hge]
            exact ⟨by omega, by omega⟩
      have hcb : ∀ E, X.length + 1 ≤ E → E ≤ (X ++ t).length →
          cllBack (X ++ t) X.length E = X.length + 1 := by
        intro E hE1 hE2
        apply cllBack_eq
        · exact hE1
        · intro j h1 h2
          rcases Nat.lt_or_ge j (X ++ t).length with hj | hj
          · rw [hlen] at hj
            have hb := token_byteAt (X := X) ht (j := j) (by omega) (by omega)
            exact ⟨hb.2.1, hb.1⟩
          · rw [byteAt_of_ge _ _ hj]
            exact ⟨by omega, by omega⟩
      have hback : cllBack (X ++ t) X.length
            (if (X ++ t).length < X.length + W then (X ++ t).length
             else X.length + W) = X.length + 1 := by
        split_ifs with hin
        · exact hcb _ (by rw [hlen]; omega) le_rfl
        · exact hcb _ (by omega) (by rw [hlen] at hin ⊢; omega)
      unfold cllGo
      rw [if_pos (by rw [hlen]; omega)]
      dsimp only
      rw [if_pos hbE, hback, if_neg (by omega : ¬ X.length + 1 = X.length)]
      rw [cllScan_token ht (by omega)]
      dsimp only
      rcases Nat.eq_or_lt_of_le hr1 with hre | hr2
      · -- remnant of one byte: the line is left as it is
        rw [if_neg (by rw [hlen]; omega)]
        obtain ⟨f2, rfl⟩ : ∃ f2, f = f2 + 1 := ⟨f - 1, by omega⟩
        unfold cllGo
        rw [if_neg (by rw [hlen]; omega)]
        rw [show hyphChunks W (t.length + 1) t = t from by
          conv_lhs => unfold hyphChunks
          rw [if_neg (fun hc => absurd hc.1 (by omega))]]
      · -- chunk case
        have h2r : 2 ≤ t.length := by omega
        have hWr : W - 1 ≤ t.length := by
          by_contra hcon
          push_neg at hcon
          rw [Nat.mod_eq_of_lt hcon] at hmod
          omega
        have ht1 := token_byteAt (X := X) ht (j := X.length + 1) (by omega) (by omega)
        rw [if_pos (by rw [hlen]; omega)]
        rw [if_neg ht1.2.1, if_neg ht1.1, if_neg (by omega)]
        rw [show X.length + W - 1 = X.length + (W - 1) from by omega]
        have h45a : byteAt (X ++ t) (X.length + (W - 1)) ≠ 45 := by
          rcases Nat.lt_or_ge (W - 1) t.length with hlt | hge
          · exact (token_byteAt (X := X) ht (j := X.length + (W - 1)) (by omega)
              (by omega)).2.2
          · rw [byteAt_of_ge _ _ (by rw [hlen]; omega)]
            omega
        rw [if_neg h45a, if_neg (by omega : ¬ X.length + (W - 1) = 0)]
        rw [show X.length + (W - 1) - 1 = X.length + (W - 2) from by omega]
        have h45b : byteAt (X ++ t) (X.length + (W - 2)) ≠ 45 :=
          (token_byteAt (X := X) ht (j := X.length + (W - 2)) (by omega)
            (by omega)).2.2
        rw [if_neg h45b]
        rw [show cllInsert (X ++ t) (X.length + (W - 1)) 2
            = some ((X ++ t).take (X.length + (W - 1)) ++
                List.replicate 2 0 ++
                (X ++ t).drop (X.length + (W - 1))) from by
          unfold cllInsert
          rw [if_neg (by rw [hlen]; omega)]]
        dsimp only
        rw [List.take_append, List.drop_append]
        rw [set_pair_shape (X ++ t.take (W - 1)) (t.drop (W - 1))
          (X.length + (W - 1))
          (by simp only [List.length_append, List.length_take]; omega)]
        have hdl : (t.drop (W - 1)).length = t.length - (W - 1) := by simp
        have hstep := ih (r - (W - 1)) (by omega) f
          ((X ++ t.take (W - 1)) ++ [45, 10]) (t.drop (W - 1))
          (by rw [hdl]; omega) (by omega)
          (fun b hb => ht b (List.mem_of_mem_drop hb))
          (by
            rw [hdl, hr]
            have hsplit : r = (W - 1) + (r - (W - 1)) := by omega
            have := Nat.add_mod_left (W - 1) (r - (W - 1))
            rw [hr] at hmod
            rw [hsplit] at hmod
            rw [this] at hmod
            exact hmod)
        rw [show hyphChunks W (t.length + 1) t
            = t.take (W - 1) ++ 45 :: 10 ::
              hyphChunks W ((t.drop (W - 1)).length + 1) (t.drop (W - 1))
            from by
          conv_lhs => unfold hyphChunks
          rw [if_pos ⟨h2r, hWr⟩]
          rw [hyphChunks_fuel W hW t.length (t.drop (W - 1))
            (by rw [hdl]; omega), hdl]]
        convert hstep using 2
        · simp
        · simp only [List.length_append, List.length_take,
            List.length_cons, List.length_nil]
          omega
        · simp [List.append_assoc]

/-- C6 counterexample: reflow of the single 7-byte token "abcdefg" at
width 5 leaves a 3-byte remnant; the next probe points the hyphen
insertion one byte past endp, and __shift_file_data's memmove count
endp - p underflows as size_t — undefined behaviour, no output. -/
theorem reflow_hyphenation_crash :
    change_line_length 5 [97, 98, 99, 100, 101, 102, 103] = none := by
  decide

/-- C6 (amended): for width W ≥ 2 and a single hyphen-free token
longer than W whose length is 0 or 1 modulo W - 1, reflow forces
hyphenation: the output is chunks of W - 1 bytes each followed by
"-\n" (with a possible 1-byte remnant), and in particular a hyphen
sits at offset W - 1 from the line start immediately followed by LF.
For other lengths the remnant probe shifts with an underflowing
memmove count (see the counterexample). -/
theorem reflow_forces_hyphenation (W : Nat) (t : List Nat) (hW : 2 ≤ W)
    (ht : ∀ b ∈ t, b ≠ 10 ∧ b ≠ 32 ∧ b ≠ 45) (hL : W < t.length)
    (hmod : t.length % (W - 1) ≤ 1) :
    change_line_length W t = some (expectedHyph W t) ∧
    byteAt (expectedHyph W t) (W - 1) = 45 ∧
    byteAt (expectedHyph W t) W = 10 := by
  have hsplit : expectedHyph W t = t.take (W - 1) ++ 45 :: 10 ::
      hyphChunks W t.length (t.drop (W - 1)) := by
    unfold expectedHyph
    conv_lhs => unfold hyphChunks
    rw [if_pos ⟨by omega, by omega⟩]
  have htl : (t.take (W - 1)).length = W - 1 := by
    rw [List.length_take]
    omega
  refine ⟨?_, ?_, ?_⟩
  · have h := cllGo_token W hW t.length (t.length + 1) [] t rfl le_rfl ht hmod
    unfold change_line_length expectedHyph
    simpa using h
  · rw [hsplit, byteAt_append_right _ _ (W - 1) (by rw [htl]), htl]
    simp only [Nat.sub_self]
    rfl
  · rw [hsplit, byteAt_append_right _ _ W (by rw [htl]; omega), htl,
        show W - (W - 1) = 1 from by omega]
    rfl

/-- Witness for reflow_forces_hyphenation: "abcdefgh" at width 5
(8 = 2 * 4 chunks exactly) becomes "abcd-\nefgh-\n". -/
theorem reflow_forces_hyphenation_witness :
    (∀ b ∈ [97, 98, 99, 100, 101, 102, 103, 104],
      b ≠ 10 ∧ b ≠ 32 ∧ b ≠ 45) ∧
    (change_line_length 5 [97, 98, 99, 100, 101, 102, 103, 104]
        = some (expectedHyph 5 [97, 98, 99, 100, 101, 102, 103, 104]) ∧
      byteAt (expectedHyph 5 [97, 98, 99, 100, 101, 102, 103, 104]) 4 = 45 ∧
      byteAt (expectedHyph 5 [97, 98, 99, 100, 101, 102, 103, 104]) 5 = 10) :=
  ⟨by decide, reflow_forces_hyphenation 5
    [97, 98, 99, 100, 101, 102, 103, 104] (by decide) (by decide)
    (by decide) (by decide)⟩

end Ftext
